import Mathlib
/-!
# Verification of the pyout row-normalization / field-rendering core
This file gives a shallow embedding, in Lean 4, of the core pipeline of the
`pyout` repository (`pyout/common.py` and `pyout/field.py`): the truncation
and interval-lookup style processors, the row normalizer (shape dispatch,
delayed groups, callable stripping) and the `StyleFields` renderer with
auto-growing widths.  Python strings are modelled as `List Char`, Python
floats (used only for ordered comparisons in the interval lookup) as `ℚ`,
and Python dictionaries as ordered association lists with first-match
lookup, in-place update and key deletion, matching CPython dict semantics
for the operations the code performs.
-/

namespace Pyout

/-! ## Strings

`pyStripTruthy l` models the Python expression `bool(s.strip())`: it is
`true` exactly when `l` contains a non-whitespace character. -/
def pyStripTruthy (l : List Char) : Bool :=
  l.any (fun c => !c.isWhitespace)

/-! ## `StyleProcessors.truncate` (pyout/field.py)

The `marker` argument of `truncate` is `str or bool` in Python; we embed it
as a small sum.  `markerTruthy` models Python truthiness of the (resolved)
marker: `False` and the empty string are falsy. -/
inductive Marker where
  | mtrue : Marker
  | mfalse : Marker
  | mstr : List Char → Marker
deriving DecidableEq

def markerTruthy : Marker → Bool
  | Marker.mtrue => true
  | Marker.mfalse => false
  | Marker.mstr s => !s.isEmpty

def markerChars : Marker → List Char
  | Marker.mstr s => s
  | _ => []

/-- The `if marker is True: marker = "..."` step at the top of
`StyleProcessors.truncate` (pyout/field.py). -/
def resolveMarker (marker : Marker) : Marker :=
  if marker = Marker.mtrue then Marker.mstr ("...".toList) else marker

/-- Embedding of the closure `truncate_fn` returned by
`StyleProcessors.truncate(length, marker)` (pyout/field.py).  `Nat`
subtraction gives `max(length - len(marker), 0)` directly.  The function
is total: the Python closure never raises. -/
def truncate_fn (length : Nat) (marker : Marker) (result : List Char) : List Char :=
  let m := resolveMarker marker
  if result.length ≤ length then
    result
  else if markerTruthy m then
    let ms := markerChars m
    let marker_beg := length - ms.length
    if pyStripTruthy (result.drop marker_beg) then
      if marker_beg = 0 then ms.take length
      else result.take marker_beg ++ ms
    else
      result.take length
  else
    result.take length

/-! ## `StyleProcessors.by_interval_lookup` (pyout/field.py)

Python exceptions that the embedded code can raise. -/
inductive PyErr where
  | typeError : PyErr
  | indexError : PyErr
  | keyError : PyErr
  | attrError : PyErr
deriving DecidableEq, Repr

/-- Embedding of the closure `by_interval_lookup_fn` returned by
`StyleProcessors.by_interval_lookup(intervals, key)` (pyout/field.py).
Python floats enter only through ordered comparison, so the numeric
domain is modelled as `ℚ`; an interval bound that is `None` stays
`Option.none`.  The nested `match` mirrors the source
`if start is None: start = float("-inf")` / `elif end is None:
end = float("inf")` chain: when `start` is `None` the `elif` is skipped,
so a `None` end is not replaced and the Python 3 comparison
`value < None` raises `TypeError`.  A match whose attribute is falsy
(the empty string) returns the result unchanged. -/
def by_interval_lookup_fn (translate : String → String) (key : Option String)
    (intervals : List (Option ℚ × Option ℚ × String)) (value : ℚ)
    (result : String) : Except PyErr String :=
  match intervals with
  | [] => Except.ok result
  | (start, stop, lookup_value) :: rest =>
    let hit : Except PyErr String :=
      if lookup_value = "" then Except.ok result
      else Except.ok (translate (key.getD lookup_value) ++ result)
    match start, stop with
    | Option.none, Option.none => Except.error PyErr.typeError
    | Option.none, Option.some e =>
        if value < e then hit
        else by_interval_lookup_fn translate key rest value result
    | Option.some s, Option.none =>
        if s ≤ value then hit
        else by_interval_lookup_fn translate key rest value result
    | Option.some s, Option.some e =>
        if s ≤ value ∧ value < e then hit
        else by_interval_lookup_fn translate key rest value result

/-! ## Data model for the row normalizer (pyout/common.py)

Row keys: `strip_callables` documents that a row key "is either a single
column name or a tuple of column names". -/
inductive RKey where
  | single : String → RKey
  | multi : List String → RKey
deriving DecidableEq, Repr

set_option genSizeOfSpec false

/-- The universe of cell values the normalizer distinguishes: strings,
`Nothing` placeholders (modelled from the spec: the `Nothing` class of the
missing `pyout/field.py` revision is a string-like sentinel carrying its
display text, empty by default), 2-tuples, and callables.  The only
callables the core ever invokes are the delayed-group producers, which
return a column→value mapping, possibly raising; other callables are
carried around opaquely, so the one return type loses nothing. -/
inductive PyVal where
  | vstr : String → PyVal
  | vnothing : String → PyVal
  | vtup : PyVal → PyVal → PyVal
  | vfun : (Unit → Except PyErr (List (String × PyVal))) → PyVal

/-- The module-level `NOTHING = Nothing()` sentinel of pyout/common.py. -/
def NOTHING : PyVal := PyVal.vnothing ""

/-- Type of a deferred computation, as collected by `strip_callables`. -/
abbrev Producer : Type := Unit → Except PyErr (List (String × PyVal))

/-- A Python dict with `RKey` keys, as an ordered association list. -/
abbrev Dict : Type := List (RKey × PyVal)

/-- `row[k]` lookup (first match; CPython dicts have unique keys). -/
def dget (r : Dict) (k : RKey) : Option PyVal :=
  match r with
  | [] => Option.none
  | (k2, v) :: rest => if k2 = k then Option.some v else dget rest k

/-- `row[k] = v`: replace in place when the key exists, else append —
CPython dict insertion-order semantics. -/
def dset (r : Dict) (k : RKey) (v : PyVal) : Dict :=
  match r with
  | [] => [(k, v)]
  | (k2, v2) :: rest =>
      if k2 = k then (k2, v) :: rest else (k2, v2) :: dset rest k v

/-- `del row[k]`: drop the (unique) entry for `k`. -/
def ddel (r : Dict) (k : RKey) : Dict :=
  match r with
  | [] => []
  | (k2, v2) :: rest => if k2 = k then rest else (k2, v2) :: ddel rest k

/-! ## `RowNormalizer.strip_callables` (pyout/common.py)

The single Python loop collects three lists — `callables`, `to_add`,
`to_delete` — in row order and applies the latter two after the loop.  We
build each list by its own traversal of the unchanged row, which yields
the same three lists in the same order. -/
/-- The `initial, fn = value` / `else: initial = NOTHING; fn = value`
destructuring at the top of the loop body. -/
def stripInit (value : PyVal) : PyVal × PyVal :=
  match value with
  | PyVal.vtup a b => (a, b)
  | v => (NOTHING, v)

/-- `callable(fn)` (the `inspect.isgenerator` alternative has no
counterpart in this value universe). -/
def asCallable (fn : PyVal) : Option Producer :=
  match fn with
  | PyVal.vfun f => Option.some f
  | _ => Option.none

/-- The member columns of a key: a single key contributes itself (the
`columns = columns,` 1-tuple wrap), a tuple key its members. -/
def wrapKey : RKey → List String
  | RKey.single c => [c]
  | RKey.multi cs => cs

def stripCallablesOf (row : Dict) : List (RKey × Producer) :=
  row.filterMap (fun kv =>
    (asCallable (stripInit kv.2).2).map (fun f => (RKey.multi (wrapKey kv.1), f)))

def stripToAdd (row : Dict) : List (String × PyVal) :=
  row.flatMap (fun kv =>
    if (asCallable (stripInit kv.2).2).isSome then
      (wrapKey kv.1).map (fun c => (c, (stripInit kv.2).1))
    else [])

def stripToDelete (row : Dict) : List RKey :=
  row.filterMap (fun kv =>
    match kv.1, asCallable (stripInit kv.2).2 with
    | RKey.multi cs, Option.some _ => Option.some (RKey.multi cs)
    | _, _ => Option.none)

/-- Embedding of the static method `RowNormalizer.strip_callables`: the
collected callables, and the row after the in-place mutation (`to_add`
assignments under the single column name, then `to_delete` deletions). -/
def strip_callables (row : Dict) : List (RKey × Producer) × Dict :=
  let row1 := (stripToAdd row).foldl (fun r cv => dset r (RKey.single cv.1) cv.2) row
  let row2 := (stripToDelete row).foldl (fun r k => ddel r k) row1
  (stripCallablesOf row, row2)

/-! ## `RowNormalizer.__init__` (pyout/common.py) -/
/-- The per-column `delayed` style value: `True` or a group label. -/
inductive DelayedStyle where
  | dtrue : DelayedStyle
  | dlabel : String → DelayedStyle
deriving DecidableEq, Repr

/-- The slice of a column style the normalizer reads: the optional
`delayed` key and the optional `missing` text. -/
structure ColStyle where
  delayed : Option DelayedStyle
  missing : Option String

/-- The fixed data of a `RowNormalizer`: column list and style. -/
structure NConfig where
  columns : List String
  style : String → ColStyle

/-- The delayed-group label of a column, when the column is delayed:
`group = column if value is True else value`. -/
def groupOf (style : String → ColStyle) (c : String) : Option String :=
  match (style c).delayed with
  | Option.none => Option.none
  | Option.some DelayedStyle.dtrue => Option.some c
  | Option.some (DelayedStyle.dlabel v) => Option.some v

/-- `self.delayed[group].append(column)` on a `defaultdict(list)`. -/
def addDelayed (groups : List (String × List String)) (g c : String) :
    List (String × List String) :=
  match groups with
  | [] => [(g, [c])]
  | (g2, cs) :: rest =>
      if g2 = g then (g2, cs ++ [c]) :: rest else (g2, cs) :: addDelayed rest g c

/-- One turn of the `__init__` loop over `columns`: group the column when
its style carries a `delayed` key. -/
def delayedStep (style : String → ColStyle)
    (groups : List (String × List String)) (c : String) :
    List (String × List String) :=
  match groupOf style c with
  | Option.none => groups
  | Option.some g => addDelayed groups g c

/-- The `self.delayed` mapping built by `RowNormalizer.__init__`:
group label → columns, in first-appearance order. -/
def buildDelayed (columns : List String) (style : String → ColStyle) :
    List (String × List String) :=
  columns.foldl (delayedStep style) []

/-- Membership in `self.delayed_columns` for a column of the table. -/
def isDelayed (style : String → ColStyle) (c : String) : Bool :=
  (groupOf style c).isSome

/-- `self.nothings[column]`: the per-column missing placeholder,
`Nothing(cstyle["missing"])` when a `missing` style is given, the shared
`NOTHING` otherwise. -/
def nothings (style : String → ColStyle) (c : String) : PyVal :=
  match (style c).missing with
  | Option.some m => PyVal.vnothing m
  | Option.none => NOTHING

/-! ## Input rows and the shape-specific getters (pyout/common.py) -/
/-- The three input row shapes `RowNormalizer.__call__` accepts: a
mapping, an ordered sequence, or any other object read by attribute
access (modelled as its attribute table). -/
inductive AnyRow where
  | rmap : Dict → AnyRow
  | rseq : List PyVal → AnyRow
  | robj : (String → Option PyVal) → AnyRow

/-- The `col_to_idx` dict comprehension of `getter_seq`: the index of the
last occurrence of `column` in `columns` (a dict comprehension lets later
assignments win). -/
def col_to_idx (columns : List String) (column : String) : Option Nat :=
  columns.enum.foldl
    (fun acc p => if p.2 = column then Option.some p.1 else acc) Option.none

/-- `getter_dict`: `row.get(column, self.nothings[column])`.  On a
non-mapping row, `.get` is a missing attribute (undefined behavior per the
spec); it surfaces as `AttributeError`. -/
def getter_dict (cfg : NConfig) (row : AnyRow) (column : String) :
    Except PyErr PyVal :=
  match row with
  | AnyRow.rmap r =>
      Except.ok ((dget r (RKey.single column)).getD (nothings cfg.style column))
  | _ => Except.error PyErr.attrError

/-- `getter_seq`: `row[col_to_idx[column]]`.  A column not in `columns`
is a `KeyError`; a position beyond the row is an `IndexError`; indexing a
non-sequence row (undefined behavior per the spec) a `TypeError`. -/
def getter_seq (cfg : NConfig) (row : AnyRow) (column : String) :
    Except PyErr PyVal :=
  match row with
  | AnyRow.rseq xs =>
      match col_to_idx cfg.columns column with
      | Option.none => Except.error PyErr.keyError
      | Option.some i =>
          match xs[i]? with
          | Option.none => Except.error PyErr.indexError
          | Option.some v => Except.ok v
  | _ => Except.error PyErr.typeError

/-- `getter_attrs`: `getattr(row, column, self.nothings[column])`.  With
a default, `getattr` never raises, on any object. -/
def getter_attrs (cfg : NConfig) (row : AnyRow) (column : String) :
    Except PyErr PyVal :=
  match row with
  | AnyRow.robj f =>
      Except.ok ((f column).getD (nothings cfg.style column))
  | _ => Except.ok (nothings cfg.style column)

/-- The getter `RowNormalizer._choose_normalizer` binds into
`self.method` via `partial`, as a tag. -/
inductive GetterTag where
  | gdict : GetterTag
  | gseq : GetterTag
  | gattrs : GetterTag
deriving DecidableEq, Repr

def getterOf (cfg : NConfig) (tag : GetterTag) : AnyRow → String → Except PyErr PyVal :=
  match tag with
  | GetterTag.gdict => getter_dict cfg
  | GetterTag.gseq => getter_seq cfg
  | GetterTag.gattrs => getter_attrs cfg

/-- `RowNormalizer._choose_normalizer`: `Mapping` rows get `getter_dict`,
`Sequence` rows `getter_seq`, anything else `getter_attrs`. -/
def choose_normalizer : AnyRow → GetterTag
  | AnyRow.rmap _ => GetterTag.gdict
  | AnyRow.rseq _ => GetterTag.gseq
  | AnyRow.robj _ => GetterTag.gattrs

/-! ## `RowNormalizer._maybe_delay`, `_normalize`, `__call__` -/
/-- The closure factory `delay(cols)` inside `_maybe_delay`:
`lambda: {c: getter(row, c) for c in cols}` — the comprehension fetches in
column order and lets any getter exception propagate. -/
def delay (getter : String → Except PyErr PyVal) (cols : List String) : Producer :=
  fun _ => cols.mapM (fun c => (getter c).map (fun v => (c, v)))

/-- The synthetic key of a delayed group:
`columns[0] if len(columns) == 1 else tuple(columns)`. -/
def groupKey (cols : List String) : RKey :=
  match cols with
  | [c] => RKey.single c
  | cs => RKey.multi cs

/-- One turn of the first `_maybe_delay` loop:
`if column not in self.delayed_columns: row_norm[column] = getter(row, column)`. -/
def normStep (style : String → ColStyle) (getter : String → Except PyErr PyVal)
    (r : Dict) (c : String) : Except PyErr Dict :=
  if isDelayed style c then pure r
  else do
    let v ← getter c
    pure (dset r (RKey.single c) v)

/-- One turn of the second `_maybe_delay` loop:
`row_norm[key] = delay(columns)`. -/
def delayStep (getter : String → Except PyErr PyVal) (r : Dict)
    (gcols : String × List String) : Dict :=
  dset r (groupKey gcols.2) (PyVal.vfun (delay getter gcols.2))

/-- Embedding of `RowNormalizer._maybe_delay` with the getter already
applied to the row: every non-delayed column is fetched (exceptions
propagate), then each delayed group key is bound to its producer. -/
def maybe_delay (cfg : NConfig) (getter : String → Except PyErr PyVal) :
    Except PyErr Dict := do
  let base ← cfg.columns.foldlM (normStep cfg.style getter) []
  pure ((buildDelayed cfg.columns cfg.style).foldl (delayStep getter) base)

/-- Embedding of `RowNormalizer._normalize`: a first `strip_callables`
pass mutates mapping-shaped input rows in place, `_maybe_delay` builds
the canonical row through the getter, and a second pass strips the
producers that `_maybe_delay` just installed. -/
def normalizeWith (cfg : NConfig) (tag : GetterTag) (row : AnyRow) :
    Except PyErr (List (RKey × Producer) × Dict) :=
  let (callables0, row2) :=
    match row with
    | AnyRow.rmap r =>
        let p := strip_callables r
        (p.1, AnyRow.rmap p.2)
    | _ => (([] : List (RKey × Producer)), row)
  do
    let norm_row ← maybe_delay cfg (getterOf cfg tag row2)
    let p1 := strip_callables norm_row
    pure (callables0 ++ p1.1, p1.2)

/-- The mutable state of a `RowNormalizer`: `self.method`, `None` until
the first call binds a getter. -/
structure NState where
  method : Option GetterTag
deriving DecidableEq, Repr

/-- Embedding of `RowNormalizer.__call__`: bind the shape getter on the
first call, reuse it afterwards. -/
def nCall (cfg : NConfig) (st : NState) (row : AnyRow) :
    Except PyErr (List (RKey × Producer) × Dict) × NState :=
  match st.method with
  | Option.none =>
      let tag := choose_normalizer row
      (normalizeWith cfg tag row, NState.mk (Option.some tag))
  | Option.some tag => (normalizeWith cfg tag row, st)

/-- A two-column configuration with no delayed columns and no `missing`
styles, for sanity checks. -/
def plainCfg : NConfig :=
  NConfig.mk ["name", "status"] (fun _ => ColStyle.mk Option.none Option.none)

/-! ## The first `_maybe_delay` loop -/
/-! ## Characterizing `buildDelayed` -/
/-- Lookup in the ordered group list, first match. -/
def findGroup (groups : List (String × List String)) (g : String) :
    Option (List String) :=
  match groups with
  | [] => Option.none
  | gc :: rest => if gc.1 = g then Option.some gc.2 else findGroup rest g

/-- The columns carrying the delayed-group label `g`, in column order. -/
def filterGroup (columns : List String) (style : String → ColStyle)
    (g : String) : List String :=
  columns.filter (fun c => decide (groupOf style c = Option.some g))

/-- Concrete row for the C10 witness: a deferred single column `"a"`, a
deferred group `("b", "d")` supplied as `(initial, producer)`, and a plain
column `"e"`. -/
def c10row : Dict :=
  [(RKey.single "a", PyVal.vfun (fun _ => Except.ok [])),
   (RKey.multi ["b", "d"],
     PyVal.vtup (PyVal.vstr "i") (PyVal.vfun (fun _ => Except.ok []))),
   (RKey.single "e", PyVal.vstr "x")]

/-- Columns `a` and `b` share the delayed group label `g1`; `c` is plain. -/
def c5cfg : NConfig :=
  NConfig.mk ["a", "b", "c"]
    (fun c =>
      if c = "a" then
        ColStyle.mk (Option.some (DelayedStyle.dlabel "g1")) Option.none
      else if c = "b" then
        ColStyle.mk (Option.some (DelayedStyle.dlabel "g1")) Option.none
      else ColStyle.mk Option.none Option.none)

def c5row : Dict :=
  [(RKey.single "a", PyVal.vstr "1"), (RKey.single "b", PyVal.vstr "2"),
   (RKey.single "c", PyVal.vstr "3")]

/-! ## The Field rendering unit and `StyleFields.render`

`pyout/common.py` drives a `Field` API (`pre`/`post` processor groups
under the keys `core`/`default`/`override`, calls with `keys=...` and
`exclude_post=...`) that the checked-in `pyout/field.py` (an older
revision) does not yet provide.  The definitions below therefore follow
the specification: a Field holds a mutable width, a fixed alignment, and
per-phase processor groups (pre: `default`/`override`; post:
`core`/`default`/`override`); rendering formats the (pre-processed)
value to the width and alignment and then runs the post chain, `core`
first, then the selected group. -/
inductive Align where
  | aleft : Align
  | aright : Align
  | acenter : Align
deriving DecidableEq, Repr

def spaceChar : Char := Char.ofNat 32

def newlineChar : Char := Char.ofNat 10

/-- Python `"{:<w}" / "{:>w}" / "{:^w}"` formatting of a string: pad with
spaces to the width (centering puts the extra space on the right), never
truncate. -/
def pad (width : Nat) (align : Align) (s : List Char) : List Char :=
  if width ≤ s.length then s
  else
    let fill := width - s.length
    match align with
    | Align.aleft => s ++ List.replicate fill spaceChar
    | Align.aright => List.replicate fill spaceChar ++ s
    | Align.acenter =>
        List.replicate (fill / 2) spaceChar ++ s
          ++ List.replicate (fill - fill / 2) spaceChar

/-- Python `str()` on the embedded values.  Strings and `Nothing`
placeholders render as their text; the renderings chosen for tuples and
callables stand in for those of CPython (the claims never depend on them). -/
def pyToStr : PyVal → List Char
  | PyVal.vstr s => s.toList
  | PyVal.vnothing t => t.toList
  | PyVal.vtup _ _ => "(tuple)".toList
  | PyVal.vfun _ => "<callable>".toList

/-- The processor-group selection of a render call: `"default"` when no
style override is given, `"override"` otherwise. -/
inductive ProcGroup where
  | grpDefault : ProcGroup
  | grpOverride : ProcGroup
deriving DecidableEq, Repr

/-- Modelled from the spec: the modern `Field` of pyout/field.py (absent
from the checked-in older revision) — mutable `width`, fixed `align`,
pre-format processors under `default`/`override` and post-format
processors under `core`/`default`/`override`. -/
structure Field where
  width : Nat
  align : Align
  preDefault : List (PyVal → PyVal)
  preOverride : List (PyVal → PyVal)
  postCore : List (PyVal → List Char → List Char)
  postDefault : List (PyVal → List Char → List Char)
  postOverride : List (PyVal → List Char → List Char)

def preOf (f : Field) : ProcGroup → List (PyVal → PyVal)
  | ProcGroup.grpDefault => f.preDefault
  | ProcGroup.grpOverride => f.preOverride

def postOf (f : Field) : ProcGroup → List (PyVal → List Char → List Char)
  | ProcGroup.grpDefault => f.postDefault
  | ProcGroup.grpOverride => f.postOverride

/-- Modelled from the spec: `Field.__call__` — pre-processors transform
the value, the result is formatted to the field width and alignment,
and, unless `exclude_post` is set (the width-measurement path), the post
chain runs `core` first and then the selected group, each processor
taking the (pre-processed) value and the current string. -/
def fieldCall (f : Field) (group : ProcGroup) (exclude_post : Bool)
    (value : PyVal) : List Char :=
  let v := (preOf f group).foldl (fun v2 fn => fn v2) value
  let result := pad f.width f.align (pyToStr v)
  if exclude_post then result
  else (f.postCore ++ postOf f group).foldl (fun r fn => fn v r) result

/-- The width measurement of `StyleFields._set_widths`
(pyout/common.py): when the selected group has pre-format processors,
measure the pre-processed, formatted value; otherwise measure
`len(str(value))` directly. -/
def measured (f : Field) (group : ProcGroup) (v : PyVal) : Nat :=
  if (preOf f group).isEmpty then (pyToStr v).length
  else (fieldCall f group true v).length

/-- The state a `StyleFields` instance carries after `build`: the column
list, the column separator, one Field per column, and for each auto-width
column its optional `max` bound (`autowidth c = some wmax` marks `c` as
auto-width). -/
structure SFState where
  columns : List String
  separator : List Char
  fields : String → Field
  autowidth : String → Option (Option Nat)

/-- The `style` argument of `StyleFields.render`.  Modelled from the
spec: a given style is merged and validated by the external schema layer
and compiled by the style compiler into fresh override processor lists
per column; we take those per-column lists as given. -/
inductive StyleArg where
  | noStyle : StyleArg
  | withStyle : (String → List (PyVal → PyVal)) →
      (String → List (PyVal → List Char → List Char)) → StyleArg

/-- Embedding of `StyleFields._proc_group` (pyout/common.py): with no
style argument return the `"default"` group; with one, install the fresh
override processors on the field of every column and return `"override"`. -/
def proc_group (st : SFState) (arg : StyleArg) : ProcGroup × SFState :=
  match arg with
  | StyleArg.noStyle => (ProcGroup.grpDefault, st)
  | StyleArg.withStyle np npo =>
      (ProcGroup.grpOverride,
       SFState.mk st.columns st.separator
         (fun c =>
           if c ∈ st.columns then
             { st.fields c with preOverride := np c, postOverride := npo c }
           else st.fields c)
         st.autowidth)

/-- The `wmax is None or field.width < wmax` test of `_set_widths`. -/
def capOk (width : Nat) : Option Nat → Bool
  | Option.none => true
  | Option.some m => decide (width < m)

/-- One turn of the `StyleFields._set_widths` loop (pyout/common.py):
skip non-auto columns; grow the field width when the measured value is
wider, and flag the adjustment unless a `max` is set and the width had
already reached it. -/
def stepW (row : String → PyVal) (group : ProcGroup)
    (autow : String → Option (Option Nat)) (acc : Bool × (String → Field))
    (c : String) : Bool × (String → Field) :=
  match autow c with
  | Option.none => acc
  | Option.some wmax =>
      let fld := acc.2 c
      let value_width := measured fld group (row c)
      if fld.width < value_width then
        (acc.1 || capOk fld.width wmax,
         fun c2 => if c2 = c then { fld with width := value_width } else acc.2 c2)
      else acc

/-- Embedding of `StyleFields._set_widths`. -/
def set_widths (st : SFState) (row : String → PyVal) (group : ProcGroup) :
    Bool × (String → Field) :=
  st.columns.foldl (stepW row group st.autowidth) (false, st.fields)

/-- A normalized row as the valuation `render` reads: `row[c]` for each
column (every column of a normalized row is present, so the default is
never exercised there). -/
def dictRow (d : Dict) (c : String) : PyVal :=
  (dget d (RKey.single c)).getD NOTHING

/-- Embedding of `StyleFields.render` (pyout/common.py): select the
processor group (installing override processors when a style is given),
update auto widths, render every column through its field, and join with
the separator plus a newline, returning the line, the adjusted flag and
the mutated state. -/
def renderStep (st : SFState) (row : String → PyVal) (arg : StyleArg) :
    List Char × Bool × SFState :=
  let gs := proc_group st arg
  let aw := set_widths gs.2 row gs.1
  let st2 := SFState.mk gs.2.columns gs.2.separator aw.2 gs.2.autowidth
  let line := (List.intercalate st.separator
      (st2.columns.map (fun c => fieldCall (aw.2 c) gs.1 false (row c))))
    ++ [newlineChar]
  (line, aw.1, st2)

/-- A sequence of renders, as the façade would drive them. -/
def runRenders (st : SFState) (inputs : List ((String → PyVal) × StyleArg)) :
    SFState :=
  inputs.foldl (fun s i => (renderStep s i.1 i.2).2.2) st

/-- The end-to-end example of the spec: fixed widths 10 and 9, left-aligned,
separator one space. -/
def exampleState : SFState :=
  SFState.mk ["name", "status"] [spaceChar]
    (fun c =>
      Field.mk (if c = "name" then 10 else 9) Align.aleft [] [] [] [] [])
    (fun _ => Option.none)

def c2v : String → PyVal :=
  fun c => if c = "name" then PyVal.vstr "foo" else PyVal.vstr "ok"

def c2mrow : Dict :=
  [(RKey.single "name", PyVal.vstr "foo"),
   (RKey.single "status", PyVal.vstr "ok")]

def c2obj : String → Option PyVal :=
  fun c =>
    if c = "name" then Option.some (PyVal.vstr "foo")
    else if c = "status" then Option.some (PyVal.vstr "ok")
    else Option.none

/-! ## Characterizing `set_widths` -/
/-- The field a single `_set_widths` pass leaves for a visited column. -/
def swField (row : String → PyVal) (group : ProcGroup)
    (autow : String → Option (Option Nat)) (flds : String → Field)
    (c : String) : Field :=
  match autow c with
  | Option.none => flds c
  | Option.some _ =>
      if (flds c).width < measured (flds c) group (row c) then
        { flds c with width := measured (flds c) group (row c) }
      else flds c

/-- Whether a visited column contributes `adjusted = True`. -/
def swCond (row : String → PyVal) (group : ProcGroup)
    (autow : String → Option (Option Nat)) (flds : String → Field)
    (c : String) : Bool :=
  match autow c with
  | Option.none => false
  | Option.some wmax =>
      decide ((flds c).width < measured (flds c) group (row c)) &&
        capOk (flds c).width wmax

/-- A one-column state: auto width with no `max`, initial width 10, no
processors. -/
def c9state : SFState :=
  SFState.mk ["a"] [spaceChar]
    (fun _ => Field.mk 10 Align.aleft [] [] [] [] [])
    (fun c => if c = "a" then Option.some Option.none else Option.none)

/-- One auto-width column `"a"` with `max = 5`, starting at the default
minimum width 0. -/
def c1state : SFState :=
  SFState.mk ["a"] [spaceChar]
    (fun _ => Field.mk 0 Align.aleft [] [] [] [] [])
    (fun c => if c = "a" then Option.some (Option.some 5) else Option.none)

/-! Regression checks against the repository test-suite
(`pyout/tests/test_field.py`). -/
example : truncate_fn 7 Marker.mtrue "abc".toList = "abc".toList := by decide

example : truncate_fn 7 Marker.mtrue "abcdefgh".toList = "abcd...".toList := by decide

example : truncate_fn 2 Marker.mtrue "abc".toList = "..".toList := by decide

example : truncate_fn 7 Marker.mfalse "abcdefgh".toList = "abcdefg".toList := by decide

/-! Sanity checks for the interval lookup on the half-open example from the
style schema: `[(0, 50, "red"), (50, None, "green")]`. -/
example :
    by_interval_lookup_fn id Option.none
      [(Option.some 0, Option.some 50, "red"), (Option.some 50, Option.none, "green")]
      25 "v" = Except.ok "redv" := by rfl

example :
    by_interval_lookup_fn id Option.none
      [(Option.some 0, Option.some 50, "red"), (Option.some 50, Option.none, "green")]
      50 "v" = Except.ok "greenv" := by rfl

example :
    by_interval_lookup_fn id Option.none
      [(Option.some 0, Option.some 50, ""), (Option.some 0, Option.none, "green")]
      25 "v" = Except.ok "v" := by rfl

/-- Unfolding lemma for `truncate_fn` (the `let` bindings inlined). -/
theorem truncate_fn_eq (n : Nat) (marker : Marker) (result : List Char) :
    truncate_fn n marker result =
      if result.length ≤ n then result
      else if markerTruthy (resolveMarker marker) then
        (if pyStripTruthy
              (result.drop (n - (markerChars (resolveMarker marker)).length)) then
          (if n - (markerChars (resolveMarker marker)).length = 0 then
            (markerChars (resolveMarker marker)).take n
           else result.take (n - (markerChars (resolveMarker marker)).length)
                  ++ markerChars (resolveMarker marker))
         else result.take n)
      else result.take n := rfl

/-- `truncate_fn` at the default marker, with the marker resolved. -/
theorem truncate_fn_mtrue (n : Nat) (result : List Char) :
    truncate_fn n Marker.mtrue result =
      if result.length ≤ n then result
      else if pyStripTruthy (result.drop (n - 3)) then
        (if n - 3 = 0 then (List.take n [Char.ofNat 46, Char.ofNat 46, Char.ofNat 46])
         else result.take (n - 3) ++ [Char.ofNat 46, Char.ofNat 46, Char.ofNat 46])
      else result.take n := rfl

/-- C3: for every string `s` and width `w < len(s)`, the processor
`StyleProcessors.truncate(w)` with the default marker `"..."` returns a
string of length exactly `w` whose first `w - 3` characters are the first
`w - 3` characters of `s`, provided the tail that the marker replaces is
not all whitespace. -/
theorem truncate_roundtrip (s : List Char) (w : Nat) (hw : w < s.length)
    (htail : pyStripTruthy (s.drop (w - 3)) = true) :
    (truncate_fn w Marker.mtrue s).length = w ∧
    (truncate_fn w Marker.mtrue s).take (w - 3) = s.take (w - 3) := by
  have hnle : ¬ s.length ≤ w := Nat.not_le.mpr hw
  rw [truncate_fn_mtrue, if_neg hnle, if_pos htail]
  by_cases hb : w - 3 = 0
  · rw [if_pos hb]
    constructor
    · simp only [List.length_take, List.length_cons, List.length_nil]
      omega
    · rw [hb]
      simp
  · rw [if_neg hb]
    have hlen : (s.take (w - 3)).length = w - 3 := by
      rw [List.length_take]; omega
    constructor
    · simp only [List.length_append, List.length_cons, List.length_nil, hlen]
      omega
    · rw [List.take_append_eq_append_take, hlen, Nat.sub_self, List.take_zero,
        List.append_nil, List.take_take, Nat.min_self]

/-- Witness for `truncate_roundtrip` at `s = "abcdefgh"`, `w = 7`. -/
theorem truncate_roundtrip_witness :
    7 < ("abcdefgh".toList).length ∧
    pyStripTruthy (("abcdefgh".toList).drop (7 - 3)) = true ∧
    ((truncate_fn 7 Marker.mtrue "abcdefgh".toList).length = 7 ∧
     (truncate_fn 7 Marker.mtrue "abcdefgh".toList).take (7 - 3)
       = ("abcdefgh".toList).take (7 - 3)) :=
  ⟨by decide, by decide, truncate_roundtrip "abcdefgh".toList 7 (by decide) (by decide)⟩

/-- C8: the truncate processor is total (the Lean embedding is a plain
function, so no input raises); at target length `0` it returns the empty
string; when the target length is smaller than the (truthy) marker it
returns the marker truncated to that length; and when the characters the
marker would replace are all whitespace it truncates without inserting the
marker. -/
theorem truncate_edge_cases (length : Nat) (marker : Marker) (s : List Char) :
    truncate_fn 0 marker s = [] ∧
    (markerTruthy (resolveMarker marker) = true →
      length < (markerChars (resolveMarker marker)).length →
      length < s.length →
      pyStripTruthy s = true →
      truncate_fn length marker s = (markerChars (resolveMarker marker)).take length) ∧
    (length < s.length →
      pyStripTruthy (s.drop (length - (markerChars (resolveMarker marker)).length)) = false →
      truncate_fn length marker s = s.take length) :=
  by
  refine ⟨?_, ?_, ?_⟩
  · by_cases h0 : s.length ≤ 0
    · have hs : s = [] := List.eq_nil_of_length_eq_zero (Nat.le_zero.mp h0)
      rw [truncate_fn_eq, hs]
      simp
    · rw [truncate_fn_eq, if_neg h0]
      by_cases ht : markerTruthy (resolveMarker marker) = true
      · rw [if_pos ht]
        by_cases hstrip :
            pyStripTruthy (s.drop (0 - (markerChars (resolveMarker marker)).length)) = true
        · rw [if_pos hstrip, if_pos (Nat.zero_sub _)]
          exact List.take_zero _
        · rw [if_neg hstrip]
          exact List.take_zero _
      · rw [if_neg ht]
        exact List.take_zero _
  · intro ht hlt hs hstrip
    have hnle : ¬ s.length ≤ length := by omega
    have hbeg : length - (markerChars (resolveMarker marker)).length = 0 :=
      Nat.sub_eq_zero_of_le (Nat.le_of_lt hlt)
    rw [truncate_fn_eq, if_neg hnle, if_pos ht, hbeg, List.drop_zero, if_pos hstrip,
      if_pos rfl]
  · intro hs hstrip
    have hnle : ¬ s.length ≤ length := by omega
    rw [truncate_fn_eq, if_neg hnle]
    by_cases ht : markerTruthy (resolveMarker marker) = true
    · rw [if_pos ht, if_neg (by simp [hstrip])]
    · rw [if_neg ht]

/-- Witness for `truncate_edge_cases`: zero length on `"abc"`; short target
`2` against the default 3-character marker on `"abc"`; an all-whitespace
replaced tail on `"ab      "` at target `5`. -/
theorem truncate_edge_cases_witness :
    truncate_fn 0 Marker.mtrue "abc".toList = [] ∧
    truncate_fn 2 Marker.mtrue "abc".toList = "..".toList ∧
    truncate_fn 5 Marker.mtrue "ab      ".toList = "ab   ".toList := by
  refine ⟨(truncate_edge_cases 0 Marker.mtrue "abc".toList).1, ?_, ?_⟩
  · have h := (truncate_edge_cases 2 Marker.mtrue "abc".toList).2.1
      (by decide) (by decide) (by decide) (by decide)
    exact h.trans (by decide)
  · have h := (truncate_edge_cases 5 Marker.mtrue "ab      ".toList).2.2
      (by decide) (by decide)
    exact h.trans (by decide)

/-- C4 (code bug): a triple whose `start` and `end` are both `None` is
never given the `+∞` substitution for `end`, because the source replaces
the bounds with an `if`/`elif` chain; the Python 3 comparison
`value < None` then raises `TypeError` instead of matching everything, as
the documented −∞/+∞ semantics would.  The embedding evaluates the failing
input `intervals = [(None, None, "red")]`, `value = 5`. -/
theorem by_interval_lookup_none_end_bug :
    by_interval_lookup_fn id Option.none [(Option.none, Option.none, "red")] 5 "x"
      = Except.error PyErr.typeError := rfl

example :
    (normalizeWith plainCfg GetterTag.gdict
        (AnyRow.rmap [(RKey.single "name", PyVal.vstr "foo")])).map
      (fun p => p.2)
      = Except.ok [(RKey.single "name", PyVal.vstr "foo"),
                   (RKey.single "status", NOTHING)] := by
  rfl

example :
    (normalizeWith plainCfg GetterTag.gseq
        (AnyRow.rseq [PyVal.vstr "foo"])).map (fun p => p.2)
      = Except.error PyErr.indexError := by
  rfl

example :
    (normalizeWith plainCfg GetterTag.gseq
        (AnyRow.rseq [PyVal.vstr "foo", PyVal.vstr "ok"])).map (fun p => p.2)
      = Except.ok [(RKey.single "name", PyVal.vstr "foo"),
                   (RKey.single "status", PyVal.vstr "ok")] := by
  rfl

/-- C7: a `RowNormalizer` binds its row-shape getter exactly once, on
its first call — mapping shape to the key-lookup getter with missing
default, sequence shape to the positional getter, anything else to the
attribute getter with missing default — and every later call reuses the
bound getter without re-dispatching on the shape of the later row. -/
theorem normalizer_binds_once (cfg : NConfig) (row later : AnyRow) :
    (nCall cfg (NState.mk Option.none) row).2
      = NState.mk (Option.some (choose_normalizer row)) ∧
    (nCall cfg (NState.mk Option.none) row).1
      = normalizeWith cfg (choose_normalizer row) row ∧
    (∀ r, choose_normalizer (AnyRow.rmap r) = GetterTag.gdict) ∧
    (∀ xs, choose_normalizer (AnyRow.rseq xs) = GetterTag.gseq) ∧
    (∀ f, choose_normalizer (AnyRow.robj f) = GetterTag.gattrs) ∧
    getterOf cfg GetterTag.gdict = getter_dict cfg ∧
    getterOf cfg GetterTag.gseq = getter_seq cfg ∧
    getterOf cfg GetterTag.gattrs = getter_attrs cfg ∧
    (∀ t, (nCall cfg (NState.mk (Option.some t)) later).2 = NState.mk (Option.some t) ∧
          (nCall cfg (NState.mk (Option.some t)) later).1 = normalizeWith cfg t later) :=
  ⟨rfl, rfl, fun _ => rfl, fun _ => rfl, fun _ => rfl, rfl, rfl, rfl,
   fun _ => ⟨rfl, rfl⟩⟩

/-! ## Dictionary lemmas -/
theorem dget_dset_eq (r : Dict) (k : RKey) (v : PyVal) :
    dget (dset r k v) k = Option.some v := by
  induction r with
  | nil => simp [dset, dget]
  | cons kv rest ih =>
      by_cases h : kv.1 = k
      · simp [dset, dget, h]
      · simp [dset, dget, h, ih]

theorem dget_dset_ne (r : Dict) (k k2 : RKey) (v : PyVal) (h : k2 ≠ k) :
    dget (dset r k v) k2 = dget r k2 := by
  induction r with
  | nil => simp [dset, dget, Ne.symm h]
  | cons kv rest ih =>
      by_cases hk : kv.1 = k
      · simp [dset, dget, hk, Ne.symm h]
      · simp [dset, dget, hk, ih]

theorem dget_ddel_ne (r : Dict) (k k2 : RKey) (h : k2 ≠ k) :
    dget (ddel r k) k2 = dget r k2 := by
  induction r with
  | nil => simp [ddel]
  | cons kv rest ih =>
      by_cases hk : kv.1 = k
      · simp [ddel, dget, hk, Ne.symm h]
      · simp [ddel, dget, hk, ih]

theorem dget_eq_none_iff (r : Dict) (k : RKey) :
    dget r k = Option.none ↔ ∀ kv ∈ r, kv.1 ≠ k := by
  induction r with
  | nil => simp [dget]
  | cons kv rest ih =>
      by_cases hk : kv.1 = k
      · simp [dget, hk]
      · simp [dget, hk, ih]

theorem mem_dset (r : Dict) (k : RKey) (v : PyVal) (kv : RKey × PyVal)
    (h : kv ∈ dset r k v) : kv ∈ r ∨ kv.1 = k := by
  induction r with
  | nil =>
      simp [dset] at h
      subst h
      exact Or.inr rfl
  | cons kv2 rest ih =>
      by_cases hk : kv2.1 = k
      · simp only [dset, if_pos hk] at h
        rcases List.mem_cons.mp h with h | h
        · exact Or.inr (h ▸ hk)
        · exact Or.inl (List.mem_cons_of_mem _ h)
      · simp only [dset, if_neg hk] at h
        rcases List.mem_cons.mp h with h | h
        · exact Or.inl (h ▸ List.mem_cons_self _ _)
        · rcases ih h with h2 | h2
          · exact Or.inl (List.mem_cons_of_mem _ h2)
          · exact Or.inr h2

theorem keys_dset_nodup (r : Dict) (k : RKey) (v : PyVal)
    (h : (r.map Prod.fst).Nodup) : ((dset r k v).map Prod.fst).Nodup := by
  induction r with
  | nil => simp [dset]
  | cons kv rest ih =>
      simp only [List.map_cons, List.nodup_cons] at h
      by_cases hk : kv.1 = k
      · simp only [dset, if_pos hk, List.map_cons, List.nodup_cons]
        exact h
      · simp only [dset, if_neg hk, List.map_cons, List.nodup_cons]
        refine ⟨?_, ih h.2⟩
        intro hmem
        rcases List.mem_map.mp hmem with ⟨kv2, hkv2, hfst⟩
        rcases mem_dset rest k v kv2 hkv2 with h2 | h2
        · exact h.1 (hfst ▸ List.mem_map_of_mem Prod.fst h2)
        · exact hk (hfst ▸ h2)

theorem dget_of_mem (r : Dict) (kv : RKey × PyVal)
    (hnd : (r.map Prod.fst).Nodup) (h : kv ∈ r) :
    dget r kv.1 = Option.some kv.2 := by
  induction r with
  | nil => simp at h
  | cons kv2 rest ih =>
      simp only [List.map_cons, List.nodup_cons] at hnd
      rcases List.mem_cons.mp h with h | h
      · subst h
        simp [dget]
      · have hne : kv2.1 ≠ kv.1 := by
          intro he
          exact hnd.1 (he ▸ List.mem_map_of_mem Prod.fst h)
        simp only [dget, if_neg hne]
        exact ih hnd.2 h

theorem findGroup_addDelayed_eq (groups : List (String × List String))
    (g c : String) :
    findGroup (addDelayed groups g c) g
      = Option.some ((findGroup groups g).getD [] ++ [c]) := by
  induction groups with
  | nil => simp [addDelayed, findGroup]
  | cons gc rest ih =>
      by_cases h : gc.1 = g
      · simp [addDelayed, findGroup, h]
      · simp [addDelayed, findGroup, h, ih]

theorem findGroup_addDelayed_ne (groups : List (String × List String))
    (g c g2 : String) (h : g2 ≠ g) :
    findGroup (addDelayed groups g c) g2 = findGroup groups g2 := by
  induction groups with
  | nil => simp [addDelayed, findGroup, Ne.symm h]
  | cons gc rest ih =>
      by_cases h2 : gc.1 = g
      · have hne : ¬ gc.1 = g2 := by rw [h2]; exact Ne.symm h
        simp [addDelayed, findGroup, h2, hne, Ne.symm h]
      · simp [addDelayed, findGroup, h2, ih]

theorem findGroup_eq_none_iff (groups : List (String × List String))
    (g : String) :
    findGroup groups g = Option.none ↔ g ∉ groups.map Prod.fst := by
  induction groups with
  | nil => simp [findGroup]
  | cons gc rest ih =>
      by_cases h : gc.1 = g
      · simp [findGroup, h]
      · simp [findGroup, h, ih, Ne.symm h]

theorem labels_addDelayed (groups : List (String × List String))
    (g c : String) :
    (addDelayed groups g c).map Prod.fst =
      if (findGroup groups g).isSome then groups.map Prod.fst
      else groups.map Prod.fst ++ [g] := by
  induction groups with
  | nil => simp [addDelayed, findGroup]
  | cons gc rest ih =>
      by_cases h : gc.1 = g
      · simp [addDelayed, findGroup, h]
      · simp only [addDelayed, if_neg h, List.map_cons, findGroup, ih]
        by_cases h2 : (findGroup rest g).isSome
        · simp [h2]
        · simp [h2]

theorem labels_addDelayed_nodup (groups : List (String × List String))
    (g c : String) (h : (groups.map Prod.fst).Nodup) :
    ((addDelayed groups g c).map Prod.fst).Nodup := by
  rw [labels_addDelayed]
  by_cases h2 : (findGroup groups g).isSome
  · simpa [h2] using h
  · have hg : g ∉ groups.map Prod.fst := by
      rw [← findGroup_eq_none_iff]
      cases h3 : findGroup groups g
      · rfl
      · exact absurd (by simp [h3]) h2
    simp only [h2, if_neg]
    simp [List.nodup_append, h, hg]

theorem buildDelayed_go (style : String → ColStyle) :
    ∀ (rest : List String) (acc : List (String × List String)) (g : String),
    findGroup (rest.foldl (delayedStep style) acc) g
      = (match findGroup acc g with
         | Option.some s0 => Option.some (s0 ++ filterGroup rest style g)
         | Option.none =>
             if filterGroup rest style g = [] then Option.none
             else Option.some (filterGroup rest style g)) := by
  intro rest
  induction rest with
  | nil =>
      intro acc g
      cases h : findGroup acc g <;> simp [filterGroup, h]
  | cons c rest ih =>
      intro acc g
      rw [List.foldl_cons]
      cases hg : groupOf style c with
      | none =>
          have hstep : delayedStep style acc c = acc := by
            simp [delayedStep, hg]
          have hfil : filterGroup (c :: rest) style g = filterGroup rest style g := by
            simp [filterGroup, List.filter_cons, hg]
          rw [hstep, ih acc g, hfil]
      | some gc =>
          have hstep : delayedStep style acc c = addDelayed acc gc c := by
            simp [delayedStep, hg]
          rw [hstep, ih (addDelayed acc gc c) g]
          by_cases hgg : g = gc
          · subst hgg
            have hfil : filterGroup (c :: rest) style g
                = c :: filterGroup rest style g := by
              simp [filterGroup, List.filter_cons, hg]
            rw [hfil, findGroup_addDelayed_eq]
            cases h0 : findGroup acc g with
            | none => simp
            | some s0 => simp
          · have hfil : filterGroup (c :: rest) style g
                = filterGroup rest style g := by
              simp only [filterGroup, List.filter_cons]
              have : ¬ (groupOf style c = Option.some g) := by
                rw [hg]
                intro h2
                exact hgg (Option.some.inj h2).symm
              simp [this]
            rw [hfil, findGroup_addDelayed_ne _ _ _ _ hgg]

theorem buildDelayed_go_nodup (style : String → ColStyle) :
    ∀ (rest : List String) (acc : List (String × List String)),
    ((acc.map Prod.fst).Nodup) →
    (((rest.foldl (delayedStep style) acc).map Prod.fst).Nodup) := by
  intro rest
  induction rest with
  | nil => intro acc h; exact h
  | cons c rest ih =>
      intro acc h
      rw [List.foldl_cons]
      cases hg : groupOf style c with
      | none =>
          have hstep : delayedStep style acc c = acc := by simp [delayedStep, hg]
          rw [hstep]
          exact ih acc h
      | some gc =>
          have hstep : delayedStep style acc c = addDelayed acc gc c := by
            simp [delayedStep, hg]
          rw [hstep]
          exact ih _ (labels_addDelayed_nodup _ _ _ h)

theorem findGroup_buildDelayed (columns : List String)
    (style : String → ColStyle) (g : String) :
    findGroup (buildDelayed columns style) g =
      if filterGroup columns style g = [] then Option.none
      else Option.some (filterGroup columns style g) := by
  have h := buildDelayed_go style columns [] g
  simpa [buildDelayed, findGroup] using h

theorem buildDelayed_labels_nodup (columns : List String)
    (style : String → ColStyle) :
    ((buildDelayed columns style).map Prod.fst).Nodup :=
  buildDelayed_go_nodup style columns [] (by simp)

theorem findGroup_of_mem (groups : List (String × List String))
    (gc : String × List String) (hnd : (groups.map Prod.fst).Nodup)
    (h : gc ∈ groups) : findGroup groups gc.1 = Option.some gc.2 := by
  induction groups with
  | nil => simp at h
  | cons gc2 rest ih =>
      simp only [List.map_cons, List.nodup_cons] at hnd
      rcases List.mem_cons.mp h with h | h
      · subst h
        simp [findGroup]
      · have hne : gc2.1 ≠ gc.1 := by
          intro he
          exact hnd.1 (he ▸ List.mem_map_of_mem Prod.fst h)
        simp only [findGroup, if_neg hne]
        exact ih hnd.2 h

theorem mem_buildDelayed (columns : List String) (style : String → ColStyle)
    (gc : String × List String) (h : gc ∈ buildDelayed columns style) :
    gc.2 = filterGroup columns style gc.1 ∧ gc.2 ≠ [] := by
  have hf := findGroup_of_mem _ _ (buildDelayed_labels_nodup columns style) h
  rw [findGroup_buildDelayed] at hf
  by_cases he : filterGroup columns style gc.1 = []
  · rw [if_pos he] at hf
    cases hf
  · rw [if_neg he] at hf
    have := Option.some.inj hf
    exact ⟨this.symm, this.symm ▸ he⟩

theorem mem_filterGroup (columns : List String) (style : String → ColStyle)
    (g c : String) :
    c ∈ filterGroup columns style g ↔
      c ∈ columns ∧ groupOf style c = Option.some g := by
  simp [filterGroup, List.mem_filter]

theorem mem_buildDelayed_delayed (columns : List String)
    (style : String → ColStyle) (gc : String × List String)
    (h : gc ∈ buildDelayed columns style) (c : String) (hcg : c ∈ gc.2) :
    c ∈ columns ∧ isDelayed style c = true := by
  have h2 := (mem_buildDelayed columns style gc h).1
  rw [h2] at hcg
  rcases (mem_filterGroup columns style gc.1 c).mp hcg with ⟨h3, h4⟩
  exact ⟨h3, by simp [isDelayed, h4]⟩

/-! ## Folded `dset`/`ddel` lemmas (the in-place mutations of
`strip_callables` and the second `_maybe_delay` loop) -/
theorem dget_foldl_dset_gen {A : Type} (keyf : A → RKey) (valf : A → PyVal) :
    ∀ (l : List A) (r : Dict) (k : RKey),
    (∀ a ∈ l, keyf a ≠ k) →
    dget (l.foldl (fun r2 a => dset r2 (keyf a) (valf a)) r) k = dget r k := by
  intro l
  induction l with
  | nil => intro r k _; rfl
  | cons a l ih =>
      intro r k h
      rw [List.foldl_cons, ih _ _ (fun a2 h2 => h a2 (List.mem_cons_of_mem _ h2)),
        dget_dset_ne _ _ _ _ (fun he => h a (List.mem_cons_self _ _) he.symm)]

theorem dget_foldl_dset_gen_const {A : Type} (keyf : A → RKey) (valf : A → PyVal) :
    ∀ (l : List A) (r : Dict) (k : RKey) (v0 : PyVal),
    (∃ a ∈ l, keyf a = k) →
    (∀ a ∈ l, keyf a = k → valf a = v0) →
    dget (l.foldl (fun r2 a => dset r2 (keyf a) (valf a)) r) k
      = Option.some v0 := by
  intro l
  induction l with
  | nil =>
      intro r k v0 hex _
      simp at hex
  | cons a l ih =>
      intro r k v0 hex hall
      rw [List.foldl_cons]
      by_cases hmem : ∃ a2 ∈ l, keyf a2 = k
      · exact ih _ _ _ hmem (fun a2 h2 => hall a2 (List.mem_cons_of_mem _ h2))
      · have hak : keyf a = k := by
          rcases hex with ⟨a2, h2, hk2⟩
          rcases List.mem_cons.mp h2 with h2 | h2
          · exact h2 ▸ hk2
          · exact absurd ⟨a2, h2, hk2⟩ hmem
        have hv : valf a = v0 := hall a (List.mem_cons_self _ _) hak
        have hne : ∀ a2 ∈ l, keyf a2 ≠ k := by
          intro a2 h2 hk2
          exact hmem ⟨a2, h2, hk2⟩
        rw [dget_foldl_dset_gen keyf valf l _ k hne, hak, hv, dget_dset_eq]

theorem mem_foldl_dset_gen {A : Type} (keyf : A → RKey) (valf : A → PyVal) :
    ∀ (l : List A) (r : Dict) (kv : RKey × PyVal),
    kv ∈ l.foldl (fun r2 a => dset r2 (keyf a) (valf a)) r →
    kv ∈ r ∨ ∃ a ∈ l, kv.1 = keyf a := by
  intro l
  induction l with
  | nil => intro r kv h; exact Or.inl h
  | cons a l ih =>
      intro r kv h
      rw [List.foldl_cons] at h
      rcases ih _ _ h with h2 | ⟨a2, h2, hk2⟩
      · rcases mem_dset _ _ _ _ h2 with h3 | h3
        · exact Or.inl h3
        · exact Or.inr ⟨a, List.mem_cons_self _ _, h3⟩
      · exact Or.inr ⟨a2, List.mem_cons_of_mem _ h2, hk2⟩

theorem keys_foldl_dset_gen_nodup {A : Type} (keyf : A → RKey) (valf : A → PyVal) :
    ∀ (l : List A) (r : Dict),
    (r.map Prod.fst).Nodup →
    ((l.foldl (fun r2 a => dset r2 (keyf a) (valf a)) r).map Prod.fst).Nodup := by
  intro l
  induction l with
  | nil => intro r h; exact h
  | cons a l ih =>
      intro r h
      rw [List.foldl_cons]
      exact ih _ (keys_dset_nodup _ _ _ h)

theorem ddel_sublist (r : Dict) (k : RKey) : (ddel r k).Sublist r := by
  induction r with
  | nil => simp [ddel]
  | cons kv rest ih =>
      by_cases h : kv.1 = k
      · simp only [ddel, if_pos h]
        exact List.sublist_cons_self _ _
      · simp only [ddel, if_neg h]
        exact ih.cons₂ kv

theorem keys_ddel_nodup (r : Dict) (k : RKey) (h : (r.map Prod.fst).Nodup) :
    ((ddel r k).map Prod.fst).Nodup :=
  ((ddel_sublist r k).map Prod.fst).nodup h

theorem dget_ddel_self (r : Dict) (k : RKey) (hnd : (r.map Prod.fst).Nodup) :
    dget (ddel r k) k = Option.none := by
  induction r with
  | nil => simp [ddel, dget]
  | cons kv rest ih =>
      simp only [List.map_cons, List.nodup_cons] at hnd
      by_cases h : kv.1 = k
      · simp only [ddel, if_pos h]
        rw [dget_eq_none_iff]
        intro kv2 h2 he
        exact hnd.1 (h ▸ he ▸ List.mem_map_of_mem Prod.fst h2)
      · simp only [ddel, if_neg h, dget, if_neg h]
        exact ih hnd.2

theorem dget_ddel_none (r : Dict) (k k2 : RKey) (h : dget r k = Option.none) :
    dget (ddel r k2) k = Option.none := by
  induction r with
  | nil => simp [ddel, dget]
  | cons kv rest ih =>
      simp only [dget] at h
      by_cases hk : kv.1 = k
      · simp [hk] at h
      · simp only [if_neg hk] at h
        by_cases hk2 : kv.1 = k2
        · simp only [ddel, if_pos hk2]
          exact h
        · simp only [ddel, if_neg hk2, dget, if_neg hk]
          exact ih h

theorem dget_foldl_ddel_none (l : List RKey) (r : Dict) (k : RKey)
    (h : dget r k = Option.none) :
    dget (l.foldl (fun r2 k2 => ddel r2 k2) r) k = Option.none := by
  induction l generalizing r with
  | nil => exact h
  | cons k2 l ih =>
      rw [List.foldl_cons]
      exact ih _ (dget_ddel_none _ _ _ h)

theorem dget_foldl_ddel_ne (l : List RKey) (r : Dict) (k : RKey)
    (h : ∀ k2 ∈ l, k2 ≠ k) :
    dget (l.foldl (fun r2 k2 => ddel r2 k2) r) k = dget r k := by
  induction l generalizing r with
  | nil => rfl
  | cons k2 l ih =>
      rw [List.foldl_cons,
        ih _ (fun k3 h3 => h k3 (List.mem_cons_of_mem _ h3)),
        dget_ddel_ne _ _ _ (fun he => h k2 (List.mem_cons_self _ _) he.symm)]

theorem keys_foldl_ddel_nodup (l : List RKey) (r : Dict)
    (h : (r.map Prod.fst).Nodup) :
    ((l.foldl (fun r2 k2 => ddel r2 k2) r).map Prod.fst).Nodup := by
  induction l generalizing r with
  | nil => exact h
  | cons k2 l ih =>
      rw [List.foldl_cons]
      exact ih _ (keys_ddel_nodup _ _ h)

theorem dget_foldl_ddel_mem (l : List RKey) (r : Dict) (k : RKey)
    (hnd : (r.map Prod.fst).Nodup) (h : k ∈ l) :
    dget (l.foldl (fun r2 k2 => ddel r2 k2) r) k = Option.none := by
  induction l generalizing r with
  | nil => simp at h
  | cons k2 l ih =>
      rw [List.foldl_cons]
      by_cases he : k2 = k
      · subst he
        exact dget_foldl_ddel_none _ _ _ (dget_ddel_self _ _ hnd)
      · rcases List.mem_cons.mp h with h2 | h2
        · exact absurd h2.symm he
        · exact ih _ (keys_ddel_nodup _ _ hnd) h2

theorem foldNorm_spec (style : String → ColStyle)
    (getter : String → Except PyErr PyVal) (gv : String → PyVal) :
    ∀ (cols : List String) (r : Dict),
    (∀ c ∈ cols, isDelayed style c = false → getter c = Except.ok (gv c)) →
    ∃ d, cols.foldlM (normStep style getter) r = Except.ok d ∧
      (∀ c ∈ cols, isDelayed style c = false →
        dget d (RKey.single c) = Option.some (gv c)) ∧
      (∀ k : RKey, (∀ c, k = RKey.single c → c ∈ cols → isDelayed style c = true) →
        dget d k = dget r k) ∧
      (∀ kv ∈ d, kv ∈ r ∨
        ∃ c ∈ cols, isDelayed style c = false ∧ kv.1 = RKey.single c) ∧
      ((r.map Prod.fst).Nodup → (d.map Prod.fst).Nodup) := by
  intro cols
  induction cols with
  | nil =>
      intro r _
      exact ⟨r, rfl, by simp, fun k _ => rfl, fun kv h => Or.inl h, fun h => h⟩
  | cons c cols ih =>
      intro r hok
      by_cases hd : isDelayed style c = true
      · have hstep : normStep style getter r c = Except.ok r := by
          unfold normStep
          rw [if_pos hd]
          rfl
        rcases ih r (fun c2 h2 => hok c2 (List.mem_cons_of_mem _ h2)) with
          ⟨d, hfold, hval, hpres, hmem, hnodup⟩
        refine ⟨d, ?_, ?_, ?_, ?_, hnodup⟩
        · rw [List.foldlM_cons, hstep]
          exact hfold
        · intro c2 h2 hnd2
          rcases List.mem_cons.mp h2 with h2 | h2
          · exact absurd (h2 ▸ hnd2) (by simp [hd])
          · exact hval c2 h2 hnd2
        · intro k hk
          exact hpres k (fun c2 he h2 => hk c2 he (List.mem_cons_of_mem _ h2))
        · intro kv hkv
          rcases hmem kv hkv with h | ⟨c2, h2, hnd2, he⟩
          · exact Or.inl h
          · exact Or.inr ⟨c2, List.mem_cons_of_mem _ h2, hnd2, he⟩
      · have hnd : isDelayed style c = false := by
          cases h2 : isDelayed style c
          · rfl
          · exact absurd h2 hd
        have hgc : getter c = Except.ok (gv c) :=
          hok c (List.mem_cons_self _ _) hnd
        have hstep : normStep style getter r c
            = Except.ok (dset r (RKey.single c) (gv c)) := by
          unfold normStep
          rw [if_neg (by simp [hnd]), hgc]
          rfl
        rcases ih (dset r (RKey.single c) (gv c))
            (fun c2 h2 => hok c2 (List.mem_cons_of_mem _ h2)) with
          ⟨d, hfold, hval, hpres, hmem, hnodup⟩
        refine ⟨d, ?_, ?_, ?_, ?_, ?_⟩
        · rw [List.foldlM_cons, hstep]
          exact hfold
        · intro c2 h2 hnd2
          by_cases hin : c2 ∈ cols
          · exact hval c2 hin hnd2
          · have hc2 : c2 = c := by
              rcases List.mem_cons.mp h2 with h2 | h2
              · exact h2
              · exact absurd h2 hin
            subst hc2
            have := hpres (RKey.single c2)
              (fun c3 he h3 => by
                cases RKey.single.inj he
                exact absurd h3 hin)
            rw [this, dget_dset_eq]
        · intro k hk
          have hkc : k ≠ RKey.single c := by
            intro he
            exact absurd (hk c he (List.mem_cons_self _ _)) (by simp [hnd])
          rw [hpres k (fun c2 he h2 => hk c2 he (List.mem_cons_of_mem _ h2)),
            dget_dset_ne _ _ _ _ hkc]
        · intro kv hkv
          rcases hmem kv hkv with h | ⟨c2, h2, hnd2, he⟩
          · rcases mem_dset _ _ _ _ h with h | h
            · exact Or.inl h
            · exact Or.inr ⟨c, List.mem_cons_self _ _, hnd, h⟩
          · exact Or.inr ⟨c2, List.mem_cons_of_mem _ h2, hnd2, he⟩
        · intro hr
          exact hnodup (keys_dset_nodup _ _ _ hr)

theorem foldNorm_err (style : String → ColStyle)
    (getter : String → Except PyErr PyVal) :
    ∀ (cols : List String) (r : Dict),
    (∀ c ∈ cols, isDelayed style c = false →
        getter c = Except.error PyErr.indexError ∨ ∃ v, getter c = Except.ok v) →
    (∃ c ∈ cols, isDelayed style c = false ∧
        getter c = Except.error PyErr.indexError) →
    cols.foldlM (normStep style getter) r = Except.error PyErr.indexError := by
  intro cols
  induction cols with
  | nil =>
      intro r _ hex
      simp at hex
  | cons c cols ih =>
      intro r hall hex
      by_cases hd : isDelayed style c = true
      · have hstep : normStep style getter r c = Except.ok r := by
          unfold normStep
          rw [if_pos hd]
          rfl
        rw [List.foldlM_cons, hstep]
        rcases hex with ⟨c2, h2, hnd2, herr2⟩
        rcases List.mem_cons.mp h2 with h2 | h2
        · exact absurd (h2 ▸ hnd2) (by simp [hd])
        · exact ih r (fun c3 h3 => hall c3 (List.mem_cons_of_mem _ h3))
            ⟨c2, h2, hnd2, herr2⟩
      · have hnd : isDelayed style c = false := by
          cases h2 : isDelayed style c
          · rfl
          · exact absurd h2 hd
        rcases hall c (List.mem_cons_self _ _) hnd with herr | ⟨v, hv⟩
        · have hstep : normStep style getter r c = Except.error PyErr.indexError := by
            unfold normStep
            rw [if_neg (by simp [hnd]), herr]
            rfl
          rw [List.foldlM_cons, hstep]
          rfl
        · have hstep : normStep style getter r c
              = Except.ok (dset r (RKey.single c) v) := by
            unfold normStep
            rw [if_neg (by simp [hnd]), hv]
            rfl
          rw [List.foldlM_cons, hstep]
          rcases hex with ⟨c2, h2, hnd2, herr2⟩
          rcases List.mem_cons.mp h2 with h2 | h2
          · subst h2
            rw [hv] at herr2
            exact absurd herr2 (by simp)
          · exact ih _ (fun c3 h3 => hall c3 (List.mem_cons_of_mem _ h3))
              ⟨c2, h2, hnd2, herr2⟩

/-! ## The second `_maybe_delay` loop and `maybe_delay` itself -/
theorem groupKey_eq_single (l : List String) (c : String)
    (h : groupKey l = RKey.single c) : l = [c] := by
  match l with
  | [] => simp [groupKey] at h
  | [a] =>
      simp only [groupKey, RKey.single.injEq] at h
      rw [h]
  | a :: b :: t => simp [groupKey] at h

theorem groupKey_inj (l1 l2 : List String) (h : groupKey l1 = groupKey l2) :
    l1 = l2 := by
  match l1, l2 with
  | [], [] => rfl
  | [], [a] => simp [groupKey] at h
  | [], a :: b :: t => simp only [groupKey, RKey.multi.injEq] at h; rw [h]
  | [a], l2 => exact (groupKey_eq_single l2 a h.symm).symm
  | a :: b :: t, [] => simp only [groupKey, RKey.multi.injEq] at h; rw [h]
  | a :: b :: t, [c] => simp [groupKey] at h
  | a :: b :: t, c :: d :: u => simp only [groupKey, RKey.multi.injEq] at h; rw [h]

theorem dget_foldl_delayStep_ne (getter : String → Except PyErr PyVal)
    (groups : List (String × List String)) (r : Dict) (k : RKey)
    (h : ∀ gc ∈ groups, groupKey gc.2 ≠ k) :
    dget (groups.foldl (delayStep getter) r) k = dget r k := by
  induction groups generalizing r with
  | nil => rfl
  | cons gc groups ih =>
      rw [List.foldl_cons, ih _ (fun gc2 h2 => h gc2 (List.mem_cons_of_mem _ h2)),
        delayStep, dget_dset_ne _ _ _ _ (fun he =>
          h gc (List.mem_cons_self _ _) he.symm)]

theorem dget_foldl_delayStep_const (getter : String → Except PyErr PyVal)
    (groups : List (String × List String)) (r : Dict) (L : List String)
    (hmem : ∃ gc ∈ groups, gc.2 = L)
    (huniq : ∀ gc2 ∈ groups, groupKey gc2.2 = groupKey L → gc2.2 = L) :
    dget (groups.foldl (delayStep getter) r) (groupKey L)
      = Option.some (PyVal.vfun (delay getter L)) := by
  induction groups generalizing r with
  | nil => simp at hmem
  | cons gc2 groups ih =>
      rw [List.foldl_cons]
      by_cases hin : ∃ gc3 ∈ groups, gc3.2 = L
      · exact ih _ hin
          (fun gc3 h3 he => huniq gc3 (List.mem_cons_of_mem _ h3) he)
      · have hL : gc2.2 = L := by
          rcases hmem with ⟨gc, hgc, hgL⟩
          rcases List.mem_cons.mp hgc with h2 | h2
          · rw [← h2]; exact hgL
          · exact absurd ⟨gc, h2, hgL⟩ hin
        have hne : ∀ gc3 ∈ groups, groupKey gc3.2 ≠ groupKey L := by
          intro gc3 h3 he
          exact hin ⟨gc3, h3, huniq gc3 (List.mem_cons_of_mem _ h3) he⟩
        rw [delayStep, hL, dget_foldl_delayStep_ne getter groups _ _ hne,
          dget_dset_eq]

theorem mem_foldl_delayStep (getter : String → Except PyErr PyVal)
    (groups : List (String × List String)) (r : Dict) (kv : RKey × PyVal)
    (h : kv ∈ groups.foldl (delayStep getter) r) :
    kv ∈ r ∨ ∃ gc ∈ groups, kv.1 = groupKey gc.2 := by
  induction groups generalizing r with
  | nil => exact Or.inl h
  | cons gc groups ih =>
      rw [List.foldl_cons] at h
      rcases ih _ h with h2 | ⟨gc2, h2, hk2⟩
      · rw [delayStep] at h2
        rcases mem_dset _ _ _ _ h2 with h3 | h3
        · exact Or.inl h3
        · exact Or.inr ⟨gc, List.mem_cons_self _ _, h3⟩
      · exact Or.inr ⟨gc2, List.mem_cons_of_mem _ h2, hk2⟩

theorem keys_foldl_delayStep_nodup (getter : String → Except PyErr PyVal)
    (groups : List (String × List String)) (r : Dict)
    (h : (r.map Prod.fst).Nodup) :
    ((groups.foldl (delayStep getter) r).map Prod.fst).Nodup := by
  induction groups generalizing r with
  | nil => exact h
  | cons gc groups ih =>
      rw [List.foldl_cons, delayStep]
      exact ih _ (keys_dset_nodup _ _ _ h)

/-- The one big fact about a successful `_maybe_delay`: the canonical row
holds the fetched value of each non-delayed column under its single-name
key, the producer of each delayed group under its synthetic key, nothing
else, and
its keys are distinct. -/
theorem maybe_delay_spec (cfg : NConfig) (getter : String → Except PyErr PyVal)
    (gv : String → PyVal)
    (hgok : ∀ c ∈ cfg.columns, isDelayed cfg.style c = false →
      getter c = Except.ok (gv c)) :
    ∃ md, maybe_delay cfg getter = Except.ok md ∧
      (∀ c ∈ cfg.columns, isDelayed cfg.style c = false →
        dget md (RKey.single c) = Option.some (gv c)) ∧
      (∀ gc ∈ buildDelayed cfg.columns cfg.style,
        dget md (groupKey gc.2) = Option.some (PyVal.vfun (delay getter gc.2))) ∧
      (∀ kv ∈ md,
        (∃ c ∈ cfg.columns, isDelayed cfg.style c = false ∧
          kv.1 = RKey.single c ∧ kv.2 = gv c) ∨
        (∃ gc ∈ buildDelayed cfg.columns cfg.style, kv.1 = groupKey gc.2)) ∧
      (md.map Prod.fst).Nodup := by
  rcases foldNorm_spec cfg.style getter gv cfg.columns [] hgok with
    ⟨d, hfold, hval, _, hmem, hnodup⟩
  have hdnodup : (d.map Prod.fst).Nodup := hnodup (by simp)
  have hgroups_ne_single : ∀ c ∈ cfg.columns, isDelayed cfg.style c = false →
      ∀ gc ∈ buildDelayed cfg.columns cfg.style,
        groupKey gc.2 ≠ RKey.single c := by
    intro c _ hnd gc hgc he
    have hc2 : c ∈ gc.2 := by
      rw [groupKey_eq_single _ _ he]
      exact List.mem_singleton.mpr rfl
    have := (mem_buildDelayed_delayed cfg.columns cfg.style gc hgc c hc2).2
    rw [this] at hnd
    cases hnd
  have huniq : ∀ gc ∈ buildDelayed cfg.columns cfg.style,
      ∀ gc2 ∈ buildDelayed cfg.columns cfg.style,
        groupKey gc2.2 = groupKey gc.2 → gc2.2 = gc.2 := by
    intro gc _ gc2 _ he
    exact groupKey_inj _ _ he
  refine ⟨(buildDelayed cfg.columns cfg.style).foldl (delayStep getter) d,
    ?_, ?_, ?_, ?_, ?_⟩
  · unfold maybe_delay
    rw [hfold]
    rfl
  · intro c hc hnd
    rw [dget_foldl_delayStep_ne getter _ _ _
      (fun gc hgc => hgroups_ne_single c hc hnd gc hgc)]
    exact hval c hc hnd
  · intro gc hgc
    exact dget_foldl_delayStep_const getter _ d gc.2 ⟨gc, hgc, rfl⟩
      (fun gc2 h2 he => huniq gc hgc gc2 h2 he)
  · intro kv hkv
    rcases mem_foldl_delayStep getter _ _ _ hkv with h2 | h2
    · rcases hmem kv h2 with h3 | ⟨c, hc, hnd, hk⟩
      · simp at h3
      · refine Or.inl ⟨c, hc, hnd, hk, ?_⟩
        have hd1 := dget_of_mem d kv hdnodup h2
        rw [hk] at hd1
        have hd2 := hval c hc hnd
        rw [hd1] at hd2
        exact Option.some.inj hd2
    · exact Or.inr h2
  · exact keys_foldl_delayStep_nodup getter _ _ hdnodup

/-! ## `col_to_idx` and `getter_seq` -/
theorem foldIdx_isSome (c : String) :
    ∀ (l : List (Nat × String)) (acc : Option Nat),
    (acc.isSome = true ∨ ∃ p ∈ l, p.2 = c) →
    (l.foldl (fun a p => if p.2 = c then Option.some p.1 else a) acc).isSome
      = true := by
  intro l
  induction l with
  | nil =>
      intro acc h
      rcases h with h | h
      · exact h
      · simp at h
  | cons p l ih =>
      intro acc h
      rw [List.foldl_cons]
      by_cases hp : p.2 = c
      · exact ih _ (Or.inl (by simp [hp]))
      · refine ih _ ?_
        rcases h with h | ⟨p2, h2, hc2⟩
        · exact Or.inl (by simp [hp, h])
        · rcases List.mem_cons.mp h2 with h3 | h3
          · exact absurd (h3 ▸ hc2) hp
          · exact Or.inr ⟨p2, h3, hc2⟩

theorem col_to_idx_isSome (cols : List String) (c : String) (h : c ∈ cols) :
    ∃ i, col_to_idx cols c = Option.some i := by
  rcases List.mem_iff_getElem?.mp h with ⟨i, hi⟩
  have hmem : (i, c) ∈ cols.enum := List.mk_mem_enum_iff_getElem?.mpr hi
  have := foldIdx_isSome c cols.enum Option.none (Or.inr ⟨(i, c), hmem, rfl⟩)
  rcases h2 : col_to_idx cols c with _ | j
  · rw [col_to_idx] at h2
    rw [h2] at this
    cases this
  · exact ⟨j, rfl⟩

theorem getter_seq_absent (cfg : NConfig) (xs : List PyVal) (c : String)
    (hc : c ∈ cfg.columns)
    (habs : ∀ i, col_to_idx cfg.columns c = Option.some i → xs.length ≤ i) :
    getter_seq cfg (AnyRow.rseq xs) c = Except.error PyErr.indexError := by
  rcases col_to_idx_isSome cfg.columns c hc with ⟨i, hi⟩
  have hlen : xs.length ≤ i := habs i hi
  have hnone : xs[i]? = Option.none := by
    rw [List.getElem?_eq_none_iff]
    exact hlen
  unfold getter_seq
  simp [hi, hnone]

theorem getter_seq_cases (cfg : NConfig) (xs : List PyVal) (c : String)
    (hc : c ∈ cfg.columns) :
    getter_seq cfg (AnyRow.rseq xs) c = Except.error PyErr.indexError ∨
      ∃ v, getter_seq cfg (AnyRow.rseq xs) c = Except.ok v := by
  rcases col_to_idx_isSome cfg.columns c hc with ⟨i, hi⟩
  rcases hx : xs[i]? with _ | v
  · refine Or.inl ?_
    unfold getter_seq
    simp [hi, hx]
  · refine Or.inr ⟨v, ?_⟩
    unfold getter_seq
    simp [hi, hx]

/-! ## `strip_callables` helpers -/
theorem wrapKey_groupKey (L : List String) : wrapKey (groupKey L) = L := by
  match L with
  | [] => rfl
  | [a] => rfl
  | a :: b :: t => rfl

theorem nothings_not_callable (style : String → ColStyle) (c : String) :
    asCallable (stripInit (nothings style c)).2 = Option.none := by
  unfold nothings
  cases (style c).missing <;> rfl

theorem stripToDelete_multi (row : Dict) (k : RKey)
    (h : k ∈ stripToDelete row) : ∃ cs, k = RKey.multi cs := by
  unfold stripToDelete at h
  rcases List.mem_filterMap.mp h with ⟨kv, _, hm⟩
  rcases hk : kv.1 with c | cs
  · rw [hk] at hm
    rcases ha : asCallable (stripInit kv.2).2 with _ | f <;> rw [ha] at hm <;>
      simp at hm
  · rw [hk] at hm
    rcases ha : asCallable (stripInit kv.2).2 with _ | f <;> rw [ha] at hm
    · simp at hm
    · simp only [Option.some.injEq] at hm
      exact ⟨cs, hm.symm⟩

theorem mem_stripToAdd (row : Dict) (p : String × PyVal)
    (h : p ∈ stripToAdd row) :
    ∃ kv ∈ row, ∃ f, asCallable (stripInit kv.2).2 = Option.some f ∧
      p.1 ∈ wrapKey kv.1 ∧ p.2 = (stripInit kv.2).1 := by
  unfold stripToAdd at h
  rcases List.mem_flatMap.mp h with ⟨kv, hkv, hp⟩
  by_cases hc : (asCallable (stripInit kv.2).2).isSome = true
  · rw [if_pos hc] at hp
    rcases Option.isSome_iff_exists.mp hc with ⟨f, hf⟩
    rcases List.mem_map.mp hp with ⟨c2, hc2, he⟩
    refine ⟨kv, hkv, f, hf, ?_, ?_⟩
    · rw [← he]
      exact hc2
    · rw [← he]
  · rw [if_neg hc] at hp
    simp at hp

/-- Entries of the row that `strip_callables` does not touch keep their
binding: keys not among the `to_add` column names nor the `to_delete`
tuple keys. -/
theorem strip_dget_single_preserved (row : Dict) (c : String)
    (hadd : ∀ p ∈ stripToAdd row, p.1 ≠ c) :
    dget (strip_callables row).2 (RKey.single c)
      = dget row (RKey.single c) := by
  show dget ((stripToDelete row).foldl (fun r k => ddel r k)
      ((stripToAdd row).foldl (fun r cv => dset r (RKey.single cv.1) cv.2) row))
      (RKey.single c) = dget row (RKey.single c)
  have hdel : ∀ k2 ∈ stripToDelete row, k2 ≠ RKey.single c := by
    intro k2 h2 he
    rcases stripToDelete_multi row k2 h2 with ⟨cs, hcs⟩
    rw [hcs] at he
    cases he
  have h1 := dget_foldl_ddel_ne (stripToDelete row)
    ((stripToAdd row).foldl (fun r cv => dset r (RKey.single cv.1) cv.2) row)
    (RKey.single c) hdel
  have h2 := dget_foldl_dset_gen (fun cv : String × PyVal => RKey.single cv.1)
    (fun cv => cv.2) (stripToAdd row) row (RKey.single c)
    (fun p hp he => hadd p hp (RKey.single.inj he))
  exact h1.trans h2

/-- Pass 0 of `_normalize` on a mapping row keeps a column absent when it
was absent and no tuple key mentions it. -/
theorem strip_absent (row : Dict) (c : String)
    (hno : dget row (RKey.single c) = Option.none)
    (hmk : ∀ kv ∈ row, ∀ cs, kv.1 = RKey.multi cs → c ∉ cs) :
    dget (strip_callables row).2 (RKey.single c) = Option.none := by
  rw [strip_dget_single_preserved]
  · exact hno
  · intro p hp he
    rcases mem_stripToAdd row p hp with ⟨kv, hkv, f, _, hpw, _⟩
    rcases hk : kv.1 with c2 | cs
    · rw [hk] at hpw
      simp only [wrapKey, List.mem_singleton] at hpw
      have hc2c : c2 = c := by rw [← hpw]; exact he
      have : kv.1 = RKey.single c := by rw [hk, hc2c]
      exact (dget_eq_none_iff row (RKey.single c)).mp hno kv hkv this
    · rw [hk] at hpw
      simp only [wrapKey] at hpw
      exact hmk kv hkv cs hk (he ▸ hpw)

/-! ## Unfolding `_normalize` per input shape -/
theorem normalizeWith_seq_eq (cfg : NConfig) (tag : GetterTag) (xs : List PyVal) :
    normalizeWith cfg tag (AnyRow.rseq xs)
      = (do
          let norm_row ← maybe_delay cfg (getterOf cfg tag (AnyRow.rseq xs))
          let p1 := strip_callables norm_row
          pure (([] : List (RKey × Producer)) ++ p1.1, p1.2)) := rfl

theorem normalizeWith_obj_eq (cfg : NConfig) (tag : GetterTag)
    (f : String → Option PyVal) :
    normalizeWith cfg tag (AnyRow.robj f)
      = (do
          let norm_row ← maybe_delay cfg (getterOf cfg tag (AnyRow.robj f))
          let p1 := strip_callables norm_row
          pure (([] : List (RKey × Producer)) ++ p1.1, p1.2)) := rfl

theorem normalizeWith_map_eq (cfg : NConfig) (tag : GetterTag) (r : Dict) :
    normalizeWith cfg tag (AnyRow.rmap r)
      = (do
          let norm_row ← maybe_delay cfg
            (getterOf cfg tag (AnyRow.rmap (strip_callables r).2))
          let p1 := strip_callables norm_row
          pure ((strip_callables r).1 ++ p1.1, p1.2)) := rfl

/-- A successful `_maybe_delay` followed by the pass-2 strip leaves a
non-delayed column whose fetched value is its missing placeholder bound
to that placeholder in the canonical row. -/
theorem normalized_placeholder (cfg : NConfig)
    (getter : String → Except PyErr PyVal) (gv : String → PyVal) (c : String)
    (hc : c ∈ cfg.columns) (hnd : isDelayed cfg.style c = false)
    (hgok : ∀ c2 ∈ cfg.columns, isDelayed cfg.style c2 = false →
      getter c2 = Except.ok (gv c2))
    (hgvc : gv c = nothings cfg.style c) :
    ∃ md, maybe_delay cfg getter = Except.ok md ∧
      dget (strip_callables md).2 (RKey.single c)
        = Option.some (nothings cfg.style c) := by
  rcases maybe_delay_spec cfg getter gv hgok with ⟨md, hmd, hval, _, hmem, _⟩
  refine ⟨md, hmd, ?_⟩
  have hadd : ∀ p ∈ stripToAdd md, p.1 ≠ c := by
    intro p hp he
    rcases mem_stripToAdd md p hp with ⟨kv, hkv, f, hf, hpw, _⟩
    rcases hmem kv hkv with ⟨c2, _, _, hk2, hv2⟩ | ⟨gc, hgc, hk2⟩
    · rw [hk2] at hpw
      simp only [wrapKey, List.mem_singleton] at hpw
      have hc2c : c2 = c := by rw [← hpw]; exact he
      rw [hc2c, hgvc] at hv2
      rw [hv2, nothings_not_callable] at hf
      cases hf
    · rw [hk2, wrapKey_groupKey] at hpw
      have hdel := (mem_buildDelayed_delayed cfg.columns cfg.style gc hgc p.1 hpw).2
      rw [he] at hdel
      rw [hnd] at hdel
      cases hdel
  rw [strip_dget_single_preserved md c hadd, hval c hc hnd, hgvc]

/-- C6: a column absent from a sequence-shaped row makes `normalize`
raise an uncaught lookup (index) error, while on mapping- and
attribute-shaped rows `normalize` never errors and binds an absent
column to its missing placeholder. -/
theorem missing_column_substitution (cfg : NConfig) (c : String)
    (xs : List PyVal) (mrow : Dict) (obj : String → Option PyVal)
    (hc : c ∈ cfg.columns) (hnd : isDelayed cfg.style c = false)
    (hseq : ∀ i, col_to_idx cfg.columns c = Option.some i → xs.length ≤ i)
    (hmk : ∀ kv ∈ mrow, ∀ cs, kv.1 = RKey.multi cs → c ∉ cs)
    (hmno : dget mrow (RKey.single c) = Option.none)
    (hobj : obj c = Option.none) :
    normalizeWith cfg GetterTag.gseq (AnyRow.rseq xs)
      = Except.error PyErr.indexError ∧
    (∀ r : Dict, ∃ out,
      normalizeWith cfg GetterTag.gdict (AnyRow.rmap r) = Except.ok out) ∧
    (∀ g : String → Option PyVal, ∃ out,
      normalizeWith cfg GetterTag.gattrs (AnyRow.robj g) = Except.ok out) ∧
    (∃ out, normalizeWith cfg GetterTag.gdict (AnyRow.rmap mrow)
        = Except.ok out ∧
      dget out.2 (RKey.single c) = Option.some (nothings cfg.style c)) ∧
    (∃ out, normalizeWith cfg GetterTag.gattrs (AnyRow.robj obj)
        = Except.ok out ∧
      dget out.2 (RKey.single c) = Option.some (nothings cfg.style c)) := by
  refine ⟨?_, ?_, ?_, ?_, ?_⟩
  · have herr : cfg.columns.foldlM
        (normStep cfg.style (getterOf cfg GetterTag.gseq (AnyRow.rseq xs))) []
        = Except.error PyErr.indexError := by
      refine foldNorm_err cfg.style _ cfg.columns []
        (fun c2 h2 _ => getter_seq_cases cfg xs c2 h2) ⟨c, hc, hnd, ?_⟩
      exact getter_seq_absent cfg xs c hc hseq
    have hmderr : maybe_delay cfg (getterOf cfg GetterTag.gseq (AnyRow.rseq xs))
        = Except.error PyErr.indexError := by
      unfold maybe_delay
      rw [herr]
      rfl
    rw [normalizeWith_seq_eq, hmderr]
    rfl
  · intro r
    rcases maybe_delay_spec cfg
        (getterOf cfg GetterTag.gdict (AnyRow.rmap (strip_callables r).2))
        (fun c2 => (dget (strip_callables r).2 (RKey.single c2)).getD
          (nothings cfg.style c2))
        (fun c2 _ _ => rfl) with ⟨md, hmd, _⟩
    refine ⟨((strip_callables r).1 ++ (strip_callables md).1,
      (strip_callables md).2), ?_⟩
    rw [normalizeWith_map_eq, hmd]
    rfl
  · intro g
    rcases maybe_delay_spec cfg (getterOf cfg GetterTag.gattrs (AnyRow.robj g))
        (fun c2 => (g c2).getD (nothings cfg.style c2))
        (fun c2 _ _ => rfl) with ⟨md, hmd, _⟩
    refine ⟨(([] : List (RKey × Producer)) ++ (strip_callables md).1,
      (strip_callables md).2), ?_⟩
    rw [normalizeWith_obj_eq, hmd]
    rfl
  · have habsent : dget (strip_callables mrow).2 (RKey.single c)
        = Option.none := strip_absent mrow c hmno hmk
    rcases normalized_placeholder cfg
        (getterOf cfg GetterTag.gdict (AnyRow.rmap (strip_callables mrow).2))
        (fun c2 => (dget (strip_callables mrow).2 (RKey.single c2)).getD
          (nothings cfg.style c2))
        c hc hnd (fun c2 _ _ => rfl)
        (by simp [habsent]) with ⟨md, hmd, hdget⟩
    refine ⟨((strip_callables mrow).1 ++ (strip_callables md).1,
      (strip_callables md).2), ?_, hdget⟩
    rw [normalizeWith_map_eq, hmd]
    rfl
  · rcases normalized_placeholder cfg
        (getterOf cfg GetterTag.gattrs (AnyRow.robj obj))
        (fun c2 => (obj c2).getD (nothings cfg.style c2))
        c hc hnd (fun c2 _ _ => rfl)
        (by simp [hobj]) with ⟨md, hmd, hdget⟩
    refine ⟨(([] : List (RKey × Producer)) ++ (strip_callables md).1,
      (strip_callables md).2), ?_, hdget⟩
    rw [normalizeWith_obj_eq, hmd]
    rfl

/-- Witness for `missing_column_substitution`: columns
`["name", "status"]`, plain style, missing column `"status"`, sequence
row `["foo"]`, mapping row `{"name": "foo"}`, attribute object with only
a `name` attribute. -/
theorem missing_column_substitution_witness :
    normalizeWith plainCfg GetterTag.gseq (AnyRow.rseq [PyVal.vstr "foo"])
      = Except.error PyErr.indexError ∧
    (∃ out, normalizeWith plainCfg GetterTag.gdict
        (AnyRow.rmap [(RKey.single "name", PyVal.vstr "foo")])
        = Except.ok out ∧
      dget out.2 (RKey.single "status")
        = Option.some (nothings plainCfg.style "status")) := by
  have h := missing_column_substitution plainCfg "status" [PyVal.vstr "foo"]
    [(RKey.single "name", PyVal.vstr "foo")]
    (fun c => if c = "name" then Option.some (PyVal.vstr "foo") else Option.none)
    (by simp [plainCfg]) (by rfl)
    (by
      intro i hi
      have h1 : (1 : Nat) = i := Option.some.inj hi
      rw [List.length_singleton, ← h1])
    (by
      intro kv hkv cs hcs
      simp only [List.mem_singleton] at hkv
      rw [hkv] at hcs
      cases hcs)
    (by rfl)
    (by rfl)
  exact ⟨h.1, h.2.2.2.1⟩

/-! ## C10: the shape of the `strip_callables` output -/
theorem mem_stripCallablesOf_of (row : Dict) (kv : RKey × PyVal) (f : Producer)
    (hkv : kv ∈ row) (hf : asCallable (stripInit kv.2).2 = Option.some f) :
    (RKey.multi (wrapKey kv.1), f) ∈ stripCallablesOf row := by
  unfold stripCallablesOf
  refine List.mem_filterMap.mpr ⟨kv, hkv, ?_⟩
  rw [hf]
  rfl

theorem stripCallablesOf_keys_multi (row : Dict) (e : RKey × Producer)
    (h : e ∈ stripCallablesOf row) : ∃ cs, e.1 = RKey.multi cs := by
  unfold stripCallablesOf at h
  rcases List.mem_filterMap.mp h with ⟨kv, _, hm⟩
  rcases ha : asCallable (stripInit kv.2).2 with _ | f <;> rw [ha] at hm
  · cases hm
  · have hm2 : (RKey.multi (wrapKey kv.1), f) = e := Option.some.inj hm
    exact ⟨wrapKey kv.1, by rw [← hm2]⟩

theorem mem_stripToDelete_of (row : Dict) (kv : RKey × PyVal) (cs : List String)
    (f : Producer) (hkv : kv ∈ row) (hk : kv.1 = RKey.multi cs)
    (hf : asCallable (stripInit kv.2).2 = Option.some f) :
    RKey.multi cs ∈ stripToDelete row := by
  unfold stripToDelete
  refine List.mem_filterMap.mpr ⟨kv, hkv, ?_⟩
  rw [hk, hf]

theorem mem_stripToAdd_of (row : Dict) (kv : RKey × PyVal) (f : Producer)
    (c : String) (hkv : kv ∈ row)
    (hf : asCallable (stripInit kv.2).2 = Option.some f)
    (hc : c ∈ wrapKey kv.1) :
    (c, (stripInit kv.2).1) ∈ stripToAdd row := by
  unfold stripToAdd
  refine List.mem_flatMap.mpr ⟨kv, hkv, ?_⟩
  rw [if_pos (by rw [hf]; rfl)]
  exact List.mem_map.mpr ⟨c, hc, rfl⟩

/-- C10: every element of the deferred list returned by
`strip_callables` carries a tuple of column names: a single-column key is
wrapped into a 1-tuple, while a tuple key is deleted from the row and each
of its member columns is set to the initial value (the last clause under
the proviso that no other deferred entry also claims that column). -/
theorem strip_callables_tuple_keys (row : Dict)
    (hnd : (row.map Prod.fst).Nodup) :
    (∀ e ∈ (strip_callables row).1, ∃ cs, e.1 = RKey.multi cs) ∧
    (∀ kv ∈ row, ∀ c f, kv.1 = RKey.single c →
      asCallable (stripInit kv.2).2 = Option.some f →
      (RKey.multi [c], f) ∈ (strip_callables row).1) ∧
    (∀ kv ∈ row, ∀ cs f, kv.1 = RKey.multi cs →
      asCallable (stripInit kv.2).2 = Option.some f →
      (RKey.multi cs, f) ∈ (strip_callables row).1 ∧
      dget (strip_callables row).2 (RKey.multi cs) = Option.none ∧
      (∀ c ∈ cs,
        (∀ kv2 ∈ row, kv2 ≠ kv → ∀ f2,
          asCallable (stripInit kv2.2).2 = Option.some f2 →
          c ∉ wrapKey kv2.1) →
        dget (strip_callables row).2 (RKey.single c)
          = Option.some (stripInit kv.2).1)) := by
  refine ⟨?_, ?_, ?_⟩
  · intro e he
    exact stripCallablesOf_keys_multi row e he
  · intro kv hkv c f hk hf
    have := mem_stripCallablesOf_of row kv f hkv hf
    rw [hk] at this
    exact this
  · intro kv hkv cs f hk hf
    refine ⟨?_, ?_, ?_⟩
    · have := mem_stripCallablesOf_of row kv f hkv hf
      rw [hk] at this
      exact this
    · show dget ((stripToDelete row).foldl (fun r k => ddel r k)
        ((stripToAdd row).foldl
          (fun r cv => dset r (RKey.single cv.1) cv.2) row))
        (RKey.multi cs) = Option.none
      have hnd1 : (((stripToAdd row).foldl
          (fun r cv => dset r (RKey.single cv.1) cv.2) row).map
            Prod.fst).Nodup :=
        keys_foldl_dset_gen_nodup (fun cv : String × PyVal => RKey.single cv.1)
          (fun cv => cv.2) (stripToAdd row) row hnd
      exact dget_foldl_ddel_mem (stripToDelete row) _ (RKey.multi cs) hnd1
        (mem_stripToDelete_of row kv cs f hkv hk hf)
    · intro c hc hsolo
      show dget ((stripToDelete row).foldl (fun r k => ddel r k)
        ((stripToAdd row).foldl
          (fun r cv => dset r (RKey.single cv.1) cv.2) row))
        (RKey.single c) = Option.some (stripInit kv.2).1
      have hdel : ∀ k2 ∈ stripToDelete row, k2 ≠ RKey.single c := by
        intro k2 h2 he
        rcases stripToDelete_multi row k2 h2 with ⟨cs2, hcs2⟩
        rw [hcs2] at he
        cases he
      rw [dget_foldl_ddel_ne (stripToDelete row) _ (RKey.single c) hdel]
      have hcw : c ∈ wrapKey kv.1 := by
        rw [hk]
        exact hc
      refine dget_foldl_dset_gen_const
        (fun cv : String × PyVal => RKey.single cv.1) (fun cv => cv.2)
        (stripToAdd row) row (RKey.single c) (stripInit kv.2).1
        ⟨(c, (stripInit kv.2).1), mem_stripToAdd_of row kv f c hkv hf hcw, rfl⟩
        ?_
      intro p hp he
      rcases mem_stripToAdd row p hp with ⟨kv2, hkv2, f2, hf2, hpw, hpv⟩
      have hpc : p.1 = c := RKey.single.inj he
      by_cases hkveq : kv2 = kv
      · show p.2 = (stripInit kv.2).1
        rw [hpv, hkveq]
      · exact absurd (hpc ▸ hpw) (hsolo kv2 hkv2 hkveq f2 hf2)

/-- Witness for `strip_callables_tuple_keys` at `c10row`. -/
theorem strip_callables_tuple_keys_witness :
    (∀ e ∈ (strip_callables c10row).1, ∃ cs, e.1 = RKey.multi cs) ∧
    (∀ kv ∈ c10row, ∀ c f, kv.1 = RKey.single c →
      asCallable (stripInit kv.2).2 = Option.some f →
      (RKey.multi [c], f) ∈ (strip_callables c10row).1) ∧
    (∀ kv ∈ c10row, ∀ cs f, kv.1 = RKey.multi cs →
      asCallable (stripInit kv.2).2 = Option.some f →
      (RKey.multi cs, f) ∈ (strip_callables c10row).1 ∧
      dget (strip_callables c10row).2 (RKey.multi cs) = Option.none ∧
      (∀ c ∈ cs,
        (∀ kv2 ∈ c10row, kv2 ≠ kv → ∀ f2,
          asCallable (stripInit kv2.2).2 = Option.some f2 →
          c ∉ wrapKey kv2.1) →
        dget (strip_callables c10row).2 (RKey.single c)
          = Option.some (stripInit kv.2).1)) :=
  strip_callables_tuple_keys c10row (by decide)

/-! ## C5: delayed groups collapse to one producer -/
theorem dget_some_mem (r : Dict) (k : RKey) (v : PyVal)
    (h : dget r k = Option.some v) : (k, v) ∈ r := by
  induction r with
  | nil => cases h
  | cons kv rest ih =>
      by_cases hk : kv.1 = k
      · simp only [dget, if_pos hk] at h
        have : kv = (k, v) := by
          rcases kv with ⟨k2, v2⟩
          simp only at hk h
          rw [hk, Option.some.inj h]
        rw [← this]
        exact List.mem_cons_self _ _
      · simp only [dget, if_neg hk] at h
        exact List.mem_cons_of_mem _ (ih h)

theorem mem_key_unique (r : Dict) (kv1 kv2 : RKey × PyVal)
    (hnd : (r.map Prod.fst).Nodup) (h1 : kv1 ∈ r) (h2 : kv2 ∈ r)
    (hk : kv1.1 = kv2.1) : kv1 = kv2 := by
  have d1 := dget_of_mem r kv1 hnd h1
  have d2 := dget_of_mem r kv2 hnd h2
  rw [hk] at d1
  rw [d1] at d2
  rcases kv1 with ⟨k1, v1⟩
  rcases kv2 with ⟨k2, v2⟩
  simp only at hk d2
  rw [hk, Option.some.inj d2]

theorem findGroup_mem (groups : List (String × List String)) (g : String)
    (cs : List String) (h : findGroup groups g = Option.some cs) :
    (g, cs) ∈ groups := by
  induction groups with
  | nil => cases h
  | cons gc rest ih =>
      by_cases hk : gc.1 = g
      · simp only [findGroup, if_pos hk] at h
        have : gc = (g, cs) := by
          rcases gc with ⟨g2, cs2⟩
          simp only at hk h
          rw [hk, Option.some.inj h]
        rw [← this]
        exact List.mem_cons_self _ _
      · simp only [findGroup, if_neg hk] at h
        exact List.mem_cons_of_mem _ (ih h)

/-- A row none of whose values is deferred passes through
`strip_callables` untouched, contributing no producers. -/
theorem strip_noop (row : Dict)
    (hconc : ∀ kv ∈ row, asCallable (stripInit kv.2).2 = Option.none) :
    strip_callables row = ([], row) := by
  have h1 : stripCallablesOf row = [] := by
    unfold stripCallablesOf
    rw [List.filterMap_eq_nil_iff]
    intro kv hkv
    rw [hconc kv hkv]
    rfl
  have h2 : stripToAdd row = [] := by
    unfold stripToAdd
    rw [List.flatMap_eq_nil_iff]
    intro kv hkv
    rw [if_neg (by rw [hconc kv hkv]; simp)]
  have h3 : stripToDelete row = [] := by
    unfold stripToDelete
    rw [List.filterMap_eq_nil_iff]
    intro kv hkv
    rcases hk : kv.1 with c | cs <;> rw [hconc kv hkv]
  show (stripCallablesOf row,
    (stripToDelete row).foldl (fun r k => ddel r k)
      ((stripToAdd row).foldl
        (fun r cv => dset r (RKey.single cv.1) cv.2) row)) = ([], row)
  rw [h1, h2, h3]
  rfl

theorem mapM_delay_ok (f : String → Except PyErr PyVal) (g2 : String → PyVal) :
    ∀ (l : List String), (∀ c ∈ l, f c = Except.ok (g2 c)) →
    l.mapM (fun c => (f c).map (fun v => (c, v)))
      = Except.ok (l.map (fun c => (c, g2 c))) := by
  intro l
  induction l with
  | nil => intro _; rfl
  | cons c l ih =>
      intro h
      rw [List.mapM_cons, h c (List.mem_cons_self _ _),
        ih (fun c2 h2 => h c2 (List.mem_cons_of_mem _ h2))]
      rfl

theorem groupKey_singleton (c : String) : groupKey [c] = RKey.single c := rfl

theorem groupKey_not_singleton (L : List String) (h : L.length ≠ 1) :
    groupKey L = RKey.multi L := by
  match L with
  | [] => rfl
  | [a] => exact absurd rfl h
  | a :: b :: t => rfl

/-- C5: columns configured with the same delayed group label collapse
into exactly one `(columns, producer)` entry of the deferred list returned
by `normalize`; in the `_maybe_delay` row the group sits under the single
column name for a one-column group and under the tuple of column names
otherwise; invoking the producer returns exactly the columns of the group
mapped to the values fetched from the original (mapping-shaped) row. -/
theorem delayed_group_collapse (cfg : NConfig) (g : String) (mrow : Dict)
    (hconc : ∀ kv ∈ mrow, asCallable (stripInit kv.2).2 = Option.none)
    (hS : filterGroup cfg.columns cfg.style g ≠ []) :
    ∃ out md p,
      normalizeWith cfg GetterTag.gdict (AnyRow.rmap mrow) = Except.ok out ∧
      maybe_delay cfg (getterOf cfg GetterTag.gdict (AnyRow.rmap mrow))
        = Except.ok md ∧
      dget md (groupKey (filterGroup cfg.columns cfg.style g))
        = Option.some (PyVal.vfun p) ∧
      (RKey.multi (filterGroup cfg.columns cfg.style g), p) ∈ out.1 ∧
      (∀ e ∈ out.1, e.1 = RKey.multi (filterGroup cfg.columns cfg.style g) →
        e = (RKey.multi (filterGroup cfg.columns cfg.style g), p)) ∧
      p () = Except.ok ((filterGroup cfg.columns cfg.style g).map
        (fun c => (c, (dget mrow (RKey.single c)).getD
          (nothings cfg.style c)))) ∧
      (∀ c0, filterGroup cfg.columns cfg.style g = [c0] →
        groupKey (filterGroup cfg.columns cfg.style g) = RKey.single c0) ∧
      ((filterGroup cfg.columns cfg.style g).length ≠ 1 →
        groupKey (filterGroup cfg.columns cfg.style g)
          = RKey.multi (filterGroup cfg.columns cfg.style g)) := by
  set S := filterGroup cfg.columns cfg.style g with hSdef
  have hstrip0 := strip_noop mrow hconc
  have hrow2 : (strip_callables mrow).2 = mrow := by rw [hstrip0]
  have hrow1 : (strip_callables mrow).1 = [] := by rw [hstrip0]
  rcases maybe_delay_spec cfg (getterOf cfg GetterTag.gdict (AnyRow.rmap mrow))
      (fun c => (dget mrow (RKey.single c)).getD (nothings cfg.style c))
      (fun _ _ _ => rfl) with ⟨md, hmd, _, hgrp, hmem, hnodup⟩
  have hfind : findGroup (buildDelayed cfg.columns cfg.style) g
      = Option.some S := by
    rw [findGroup_buildDelayed, ← hSdef, if_neg hS]
  have hgS : (g, S) ∈ buildDelayed cfg.columns cfg.style :=
    findGroup_mem _ _ _ hfind
  have hkey : dget md (groupKey S) = Option.some (PyVal.vfun
      (delay (getterOf cfg GetterTag.gdict (AnyRow.rmap mrow)) S)) :=
    hgrp (g, S) hgS
  have hent : (groupKey S, PyVal.vfun
      (delay (getterOf cfg GetterTag.gdict (AnyRow.rmap mrow)) S)) ∈ md :=
    dget_some_mem md _ _ hkey
  refine ⟨([] ++ (strip_callables md).1, (strip_callables md).2), md,
    delay (getterOf cfg GetterTag.gdict (AnyRow.rmap mrow)) S,
    ?_, hmd, hkey, ?_, ?_, ?_, ?_, ?_⟩
  · rw [normalizeWith_map_eq, hrow2, hmd, hrow1]
    rfl
  · have hmem2 := mem_stripCallablesOf_of md
      (groupKey S, PyVal.vfun
        (delay (getterOf cfg GetterTag.gdict (AnyRow.rmap mrow)) S))
      (delay (getterOf cfg GetterTag.gdict (AnyRow.rmap mrow)) S) hent rfl
    rw [wrapKey_groupKey] at hmem2
    simpa using hmem2
  · intro e he hek
    have he2 : e ∈ stripCallablesOf md := by simpa using he
    rcases List.mem_filterMap.mp he2 with ⟨kv, hkv, hF⟩
    rcases ha : asCallable (stripInit kv.2).2 with _ | f <;> rw [ha] at hF
    · cases hF
    · have he3 : (RKey.multi (wrapKey kv.1), f) = e := by
        have := hF
        simpa using this
      rcases hmem kv hkv with ⟨c2, _, _, _, hv2⟩ | ⟨gc, hgc, hk2⟩
      · exfalso
        rcases hdg : dget mrow (RKey.single c2) with _ | v
        · have hkv2 : kv.2 = nothings cfg.style c2 := by
            rw [hv2]
            simp [hdg]
          rw [hkv2, nothings_not_callable] at ha
          cases ha
        · have hvmem : (RKey.single c2, v) ∈ mrow := dget_some_mem mrow _ _ hdg
          have hvnc := hconc (RKey.single c2, v) hvmem
          have hkv2 : kv.2 = v := by
            rw [hv2]
            simp [hdg]
          rw [hkv2] at ha
          rw [ha] at hvnc
          cases hvnc
      · have hwk : wrapKey kv.1 = S := by
          have h4 : (RKey.multi (wrapKey kv.1), f).1 = e.1 := by rw [he3]
          simp only at h4
          rw [hek] at h4
          exact RKey.multi.inj h4
        have hgceq : gc.2 = S := by
          rw [hk2, wrapKey_groupKey] at hwk
          exact hwk
        have hkveq : kv = (groupKey S, PyVal.vfun
            (delay (getterOf cfg GetterTag.gdict (AnyRow.rmap mrow)) S)) :=
          mem_key_unique md kv _ hnodup hkv hent (by rw [hk2, hgceq])
        have hfe : f = delay (getterOf cfg GetterTag.gdict (AnyRow.rmap mrow)) S := by
          rw [hkveq] at ha
          exact (Option.some.inj ha).symm
        rw [← he3, hfe]
        have : wrapKey kv.1 = S := hwk
        rw [this]
  · exact mapM_delay_ok _ _ S (fun c _ => rfl)
  · intro c0 h
    rw [h]
    exact groupKey_singleton c0
  · exact groupKey_not_singleton S

/-- Witness for `delayed_group_collapse` at `c5cfg` / `c5row`. -/
theorem delayed_group_collapse_witness :
    ∃ out md p,
      normalizeWith c5cfg GetterTag.gdict (AnyRow.rmap c5row)
        = Except.ok out ∧
      maybe_delay c5cfg (getterOf c5cfg GetterTag.gdict (AnyRow.rmap c5row))
        = Except.ok md ∧
      dget md (groupKey (filterGroup c5cfg.columns c5cfg.style "g1"))
        = Option.some (PyVal.vfun p) ∧
      (RKey.multi (filterGroup c5cfg.columns c5cfg.style "g1"), p) ∈ out.1 ∧
      (∀ e ∈ out.1,
        e.1 = RKey.multi (filterGroup c5cfg.columns c5cfg.style "g1") →
        e = (RKey.multi (filterGroup c5cfg.columns c5cfg.style "g1"), p)) ∧
      p () = Except.ok ((filterGroup c5cfg.columns c5cfg.style "g1").map
        (fun c => (c, (dget c5row (RKey.single c)).getD
          (nothings c5cfg.style c)))) ∧
      (∀ c0, filterGroup c5cfg.columns c5cfg.style "g1" = [c0] →
        groupKey (filterGroup c5cfg.columns c5cfg.style "g1")
          = RKey.single c0) ∧
      ((filterGroup c5cfg.columns c5cfg.style "g1").length ≠ 1 →
        groupKey (filterGroup c5cfg.columns c5cfg.style "g1")
          = RKey.multi (filterGroup c5cfg.columns c5cfg.style "g1")) :=
  delayed_group_collapse c5cfg "g1" c5row
    (by
      intro kv hkv
      simp only [c5row, List.mem_cons, List.not_mem_nil, or_false] at hkv
      rcases hkv with h | h | h <;> subst h <;> rfl)
    (by decide)

example :
    (renderStep exampleState
      (dictRow [(RKey.single "name", PyVal.vstr "foo"),
                (RKey.single "status", PyVal.vstr "unknown")])
      StyleArg.noStyle).1 = "foo        unknown  \n".toList := by decide

/-! ## C2: the three row shapes agree -/
theorem delay_congr (g1 g2 : String → Except PyErr PyVal) (L : List String)
    (h : ∀ c ∈ L, g1 c = g2 c) : delay g1 L = delay g2 L := by
  funext u
  unfold delay
  induction L with
  | nil => rfl
  | cons c L ih =>
      rw [List.mapM_cons, List.mapM_cons, h c (List.mem_cons_self _ _),
        ih (fun c2 h2 => h c2 (List.mem_cons_of_mem _ h2))]

theorem foldNorm_congr (style : String → ColStyle)
    (g1 g2 : String → Except PyErr PyVal) :
    ∀ (cols : List String) (r : Dict), (∀ c ∈ cols, g1 c = g2 c) →
    cols.foldlM (normStep style g1) r = cols.foldlM (normStep style g2) r := by
  intro cols
  induction cols with
  | nil => intro r _; rfl
  | cons c cols ih =>
      intro r h
      rw [List.foldlM_cons, List.foldlM_cons]
      have hstep : normStep style g1 r c = normStep style g2 r c := by
        unfold normStep
        rw [h c (List.mem_cons_self _ _)]
      rw [hstep]
      rcases normStep style g2 r c with e | r2
      · rfl
      · show cols.foldlM (normStep style g1) r2
          = cols.foldlM (normStep style g2) r2
        exact ih r2 (fun c2 h2 => h c2 (List.mem_cons_of_mem _ h2))

theorem delayFold_congr (g1 g2 : String → Except PyErr PyVal)
    (groups : List (String × List String))
    (h : ∀ gc ∈ groups, delay g1 gc.2 = delay g2 gc.2) :
    ∀ r : Dict, groups.foldl (delayStep g1) r = groups.foldl (delayStep g2) r := by
  induction groups with
  | nil => intro r; rfl
  | cons gc groups ih =>
      intro r
      rw [List.foldl_cons, List.foldl_cons]
      have hstep : delayStep g1 r gc = delayStep g2 r gc := by
        unfold delayStep
        rw [h gc (List.mem_cons_self _ _)]
      rw [hstep]
      exact ih (fun gc2 h2 => h gc2 (List.mem_cons_of_mem _ h2)) _

/-- `_maybe_delay` depends on the getter only through its values on the
columns of the table. -/
theorem maybe_delay_congr (cfg : NConfig)
    (g1 g2 : String → Except PyErr PyVal)
    (h : ∀ c ∈ cfg.columns, g1 c = g2 c) :
    maybe_delay cfg g1 = maybe_delay cfg g2 := by
  unfold maybe_delay
  rw [foldNorm_congr cfg.style g1 g2 cfg.columns [] h]
  rcases cfg.columns.foldlM (normStep cfg.style g2) [] with e | base
  · rfl
  · show Except.ok ((buildDelayed cfg.columns cfg.style).foldl (delayStep g1) base)
      = Except.ok ((buildDelayed cfg.columns cfg.style).foldl (delayStep g2) base)
    rw [delayFold_congr g1 g2 _ ?_ base]
    intro gc hgc
    refine delay_congr g1 g2 gc.2 ?_
    intro c hc
    exact h c (mem_buildDelayed_delayed cfg.columns cfg.style gc hgc c hc).1

/-- C2: a mapping row, a sequence row and an attribute-object row
that carry the same concrete value for every column normalize to the
same result through fresh normalizers, and rendering the canonical rows
with no style override produces identical output text. -/
theorem three_shapes_render_equal (cfg : NConfig) (v : String → PyVal)
    (mrow : Dict) (xs : List PyVal) (obj : String → Option PyVal)
    (hmrow : ∀ kv ∈ mrow, asCallable (stripInit kv.2).2 = Option.none)
    (hm : ∀ c ∈ cfg.columns,
      getter_dict cfg (AnyRow.rmap mrow) c = Except.ok (v c))
    (hs : ∀ c ∈ cfg.columns,
      getter_seq cfg (AnyRow.rseq xs) c = Except.ok (v c))
    (ha : ∀ c ∈ cfg.columns,
      getter_attrs cfg (AnyRow.robj obj) c = Except.ok (v c)) :
    (nCall cfg (NState.mk Option.none) (AnyRow.rmap mrow)).1
      = (nCall cfg (NState.mk Option.none) (AnyRow.rseq xs)).1 ∧
    (nCall cfg (NState.mk Option.none) (AnyRow.rseq xs)).1
      = (nCall cfg (NState.mk Option.none) (AnyRow.robj obj)).1 ∧
    (∀ (st : SFState) (o1 o2 : List (RKey × Producer) × Dict),
      (nCall cfg (NState.mk Option.none) (AnyRow.rmap mrow)).1 = Except.ok o1 →
      (nCall cfg (NState.mk Option.none) (AnyRow.rseq xs)).1 = Except.ok o2 →
      (renderStep st (dictRow o1.2) StyleArg.noStyle).1
        = (renderStep st (dictRow o2.2) StyleArg.noStyle).1) ∧
    (∀ (st : SFState) (o2 o3 : List (RKey × Producer) × Dict),
      (nCall cfg (NState.mk Option.none) (AnyRow.rseq xs)).1 = Except.ok o2 →
      (nCall cfg (NState.mk Option.none) (AnyRow.robj obj)).1 = Except.ok o3 →
      (renderStep st (dictRow o2.2) StyleArg.noStyle).1
        = (renderStep st (dictRow o3.2) StyleArg.noStyle).1) := by
  have hstrip0 := strip_noop mrow hmrow
  have hrow2 : (strip_callables mrow).2 = mrow := by rw [hstrip0]
  have hrow1 : (strip_callables mrow).1 = [] := by rw [hstrip0]
  have hmd12 : maybe_delay cfg (getterOf cfg GetterTag.gdict (AnyRow.rmap mrow))
      = maybe_delay cfg (getterOf cfg GetterTag.gseq (AnyRow.rseq xs)) := by
    refine maybe_delay_congr cfg _ _ ?_
    intro c hc
    rw [show getterOf cfg GetterTag.gdict (AnyRow.rmap mrow) c
        = getter_dict cfg (AnyRow.rmap mrow) c from rfl, hm c hc,
      show getterOf cfg GetterTag.gseq (AnyRow.rseq xs) c
        = getter_seq cfg (AnyRow.rseq xs) c from rfl, hs c hc]
  have hmd23 : maybe_delay cfg (getterOf cfg GetterTag.gseq (AnyRow.rseq xs))
      = maybe_delay cfg (getterOf cfg GetterTag.gattrs (AnyRow.robj obj)) := by
    refine maybe_delay_congr cfg _ _ ?_
    intro c hc
    rw [show getterOf cfg GetterTag.gseq (AnyRow.rseq xs) c
        = getter_seq cfg (AnyRow.rseq xs) c from rfl, hs c hc,
      show getterOf cfg GetterTag.gattrs (AnyRow.robj obj) c
        = getter_attrs cfg (AnyRow.robj obj) c from rfl, ha c hc]
  have h12 : normalizeWith cfg GetterTag.gdict (AnyRow.rmap mrow)
      = normalizeWith cfg GetterTag.gseq (AnyRow.rseq xs) := by
    rw [normalizeWith_map_eq, normalizeWith_seq_eq, hrow2, hrow1, hmd12]
  have h23 : normalizeWith cfg GetterTag.gseq (AnyRow.rseq xs)
      = normalizeWith cfg GetterTag.gattrs (AnyRow.robj obj) := by
    rw [normalizeWith_seq_eq, normalizeWith_obj_eq, hmd23]
  refine ⟨h12, h23, ?_, ?_⟩
  · intro st o1 o2 ho1 ho2
    rw [show (nCall cfg (NState.mk Option.none) (AnyRow.rmap mrow)).1
        = normalizeWith cfg GetterTag.gdict (AnyRow.rmap mrow) from rfl,
      h12] at ho1
    rw [show (nCall cfg (NState.mk Option.none) (AnyRow.rseq xs)).1
        = normalizeWith cfg GetterTag.gseq (AnyRow.rseq xs) from rfl] at ho2
    rw [ho2] at ho1
    rw [Except.ok.inj ho1]
  · intro st o2 o3 ho2 ho3
    rw [show (nCall cfg (NState.mk Option.none) (AnyRow.rseq xs)).1
        = normalizeWith cfg GetterTag.gseq (AnyRow.rseq xs) from rfl,
      h23] at ho2
    rw [show (nCall cfg (NState.mk Option.none) (AnyRow.robj obj)).1
        = normalizeWith cfg GetterTag.gattrs (AnyRow.robj obj) from rfl] at ho3
    rw [ho3] at ho2
    rw [Except.ok.inj ho2]

/-- Witness for `three_shapes_render_equal`: the same two-column row as a
mapping, a sequence and an attribute object. -/
theorem three_shapes_render_equal_witness :
    (nCall plainCfg (NState.mk Option.none) (AnyRow.rmap c2mrow)).1
      = (nCall plainCfg (NState.mk Option.none)
          (AnyRow.rseq [PyVal.vstr "foo", PyVal.vstr "ok"])).1 ∧
    (nCall plainCfg (NState.mk Option.none)
        (AnyRow.rseq [PyVal.vstr "foo", PyVal.vstr "ok"])).1
      = (nCall plainCfg (NState.mk Option.none) (AnyRow.robj c2obj)).1 := by
  have h := three_shapes_render_equal plainCfg c2v c2mrow
    [PyVal.vstr "foo", PyVal.vstr "ok"] c2obj
    (by
      intro kv hkv
      simp only [c2mrow, List.mem_cons, List.not_mem_nil, or_false] at hkv
      rcases hkv with h | h <;> subst h <;> rfl)
    (by
      intro c hc
      simp only [plainCfg, List.mem_cons, List.not_mem_nil, or_false] at hc
      rcases hc with h | h <;> subst h <;> rfl)
    (by
      intro c hc
      simp only [plainCfg, List.mem_cons, List.not_mem_nil, or_false] at hc
      rcases hc with h | h <;> subst h <;> rfl)
    (by
      intro c hc
      simp only [plainCfg, List.mem_cons, List.not_mem_nil, or_false] at hc
      rcases hc with h | h <;> subst h <;> rfl)
  exact ⟨h.1, h.2.1⟩

theorem swField_congr (row : String → PyVal) (group : ProcGroup)
    (autow : String → Option (Option Nat)) (f1 f2 : String → Field)
    (c : String) (h : f1 c = f2 c) :
    swField row group autow f1 c = swField row group autow f2 c := by
  unfold swField
  rw [h]

theorem swCond_congr (row : String → PyVal) (group : ProcGroup)
    (autow : String → Option (Option Nat)) (f1 f2 : String → Field)
    (c : String) (h : f1 c = f2 c) :
    swCond row group autow f1 c = swCond row group autow f2 c := by
  unfold swCond
  rw [h]

theorem swField_eq_skip (row : String → PyVal) (group : ProcGroup)
    (autow : String → Option (Option Nat)) (flds : String → Field)
    (c : String) (h : autow c = Option.none) :
    swField row group autow flds c = flds c := by
  unfold swField
  rw [h]

theorem swField_eq_grow (row : String → PyVal) (group : ProcGroup)
    (autow : String → Option (Option Nat)) (flds : String → Field)
    (c : String) (wmax : Option Nat) (h : autow c = Option.some wmax)
    (hlt : (flds c).width < measured (flds c) group (row c)) :
    swField row group autow flds c
      = { flds c with width := measured (flds c) group (row c) } := by
  unfold swField
  rw [h]
  exact if_pos hlt

theorem swField_eq_keep (row : String → PyVal) (group : ProcGroup)
    (autow : String → Option (Option Nat)) (flds : String → Field)
    (c : String) (wmax : Option Nat) (h : autow c = Option.some wmax)
    (hlt : ¬ (flds c).width < measured (flds c) group (row c)) :
    swField row group autow flds c = flds c := by
  unfold swField
  rw [h]
  exact if_neg hlt

theorem swCond_eq_skip (row : String → PyVal) (group : ProcGroup)
    (autow : String → Option (Option Nat)) (flds : String → Field)
    (c : String) (h : autow c = Option.none) :
    swCond row group autow flds c = false := by
  unfold swCond
  rw [h]

theorem swCond_eq_some (row : String → PyVal) (group : ProcGroup)
    (autow : String → Option (Option Nat)) (flds : String → Field)
    (c : String) (wmax : Option Nat) (h : autow c = Option.some wmax) :
    swCond row group autow flds c
      = (decide ((flds c).width < measured (flds c) group (row c)) &&
          capOk (flds c).width wmax) := by
  unfold swCond
  rw [h]

theorem stepW_skip (row : String → PyVal) (group : ProcGroup)
    (autow : String → Option (Option Nat)) (acc : Bool × (String → Field))
    (c : String) (h : autow c = Option.none) :
    stepW row group autow acc c = acc := by
  unfold stepW
  rw [h]

theorem stepW_grow (row : String → PyVal) (group : ProcGroup)
    (autow : String → Option (Option Nat)) (b : Bool) (flds : String → Field)
    (c : String) (wmax : Option Nat) (h : autow c = Option.some wmax)
    (hlt : (flds c).width < measured (flds c) group (row c)) :
    stepW row group autow (b, flds) c
      = (b || capOk (flds c).width wmax,
         fun c2 => if c2 = c then
           { flds c with width := measured (flds c) group (row c) }
         else flds c2) := by
  unfold stepW
  rw [h]
  simp only
  rw [if_pos hlt]

theorem stepW_keep (row : String → PyVal) (group : ProcGroup)
    (autow : String → Option (Option Nat)) (b : Bool) (flds : String → Field)
    (c : String) (wmax : Option Nat) (h : autow c = Option.some wmax)
    (hlt : ¬ (flds c).width < measured (flds c) group (row c)) :
    stepW row group autow (b, flds) c = (b, flds) := by
  unfold stepW
  rw [h]
  simp only
  rw [if_neg hlt]

theorem any_congr_mem {A : Type} (l : List A) (p q : A → Bool)
    (h : ∀ a ∈ l, p a = q a) : l.any p = l.any q := by
  induction l with
  | nil => rfl
  | cons a l ih =>
      rw [List.any_cons, List.any_cons, h a (List.mem_cons_self _ _),
        ih (fun a2 h2 => h a2 (List.mem_cons_of_mem _ h2))]

theorem set_widths_go (row : String → PyVal) (group : ProcGroup)
    (autow : String → Option (Option Nat)) :
    ∀ (cols : List String) (b : Bool) (flds : String → Field), cols.Nodup →
    (∀ c, (cols.foldl (stepW row group autow) (b, flds)).2 c
      = if c ∈ cols then swField row group autow flds c else flds c) ∧
    (cols.foldl (stepW row group autow) (b, flds)).1
      = (b || cols.any (fun c => swCond row group autow flds c)) := by
  intro cols
  induction cols with
  | nil =>
      intro b flds _
      exact ⟨fun c => by simp, by simp⟩
  | cons c cols ih =>
      intro b flds hnodup
      rw [List.nodup_cons] at hnodup
      rw [List.foldl_cons]
      rcases hautow : autow c with _ | wmax
      · rw [stepW_skip row group autow _ c hautow]
        rcases ih b flds hnodup.2 with ⟨ihf, iha⟩
        refine ⟨?_, ?_⟩
        · intro c2
          rw [ihf c2]
          by_cases hc2 : c2 = c
          · subst hc2
            rw [if_neg hnodup.1, if_pos (List.mem_cons_self _ _),
              swField_eq_skip row group autow flds c2 hautow]
          · by_cases hin : c2 ∈ cols
            · rw [if_pos hin, if_pos (List.mem_cons_of_mem _ hin)]
            · have hnin2 : ¬ c2 ∈ c :: cols := by
                intro h2
                rcases List.mem_cons.mp h2 with h3 | h3
                · exact hc2 h3
                · exact hin h3
              rw [if_neg hin, if_neg hnin2]
        · rw [iha, List.any_cons, swCond_eq_skip row group autow flds c hautow,
            Bool.false_or]
      · by_cases hlt : (flds c).width < measured (flds c) group (row c)
        · rw [stepW_grow row group autow b flds c wmax hautow hlt]
          rcases ih (b || capOk (flds c).width wmax)
            (fun c2 => if c2 = c then
              { flds c with width := measured (flds c) group (row c) }
             else flds c2) hnodup.2 with ⟨ihf, iha⟩
          have hsame : ∀ c2 ∈ cols,
              (fun c3 => if c3 = c then
                { flds c with width := measured (flds c) group (row c) }
               else flds c3) c2 = flds c2 := by
            intro c2 h2
            simp only
            rw [if_neg (by
              intro he
              rw [he] at h2
              exact hnodup.1 h2)]
          refine ⟨?_, ?_⟩
          · intro c2
            rw [ihf c2]
            by_cases hc2 : c2 = c
            · subst hc2
              rw [if_neg hnodup.1, if_pos (List.mem_cons_self _ _),
                swField_eq_grow row group autow flds c2 wmax hautow hlt]
              show (if c2 = c2 then
                { flds c2 with width := measured (flds c2) group (row c2) }
               else flds c2) = _
              rw [if_pos rfl]
            · by_cases hin : c2 ∈ cols
              · rw [if_pos hin, if_pos (List.mem_cons_of_mem _ hin),
                  swField_congr row group autow _ flds c2 (hsame c2 hin)]
              · have hnin2 : ¬ c2 ∈ c :: cols := by
                  intro h2
                  rcases List.mem_cons.mp h2 with h3 | h3
                  · exact hc2 h3
                  · exact hin h3
                rw [if_neg hin, if_neg hnin2]
                show (if c2 = c then
                  { flds c with width := measured (flds c) group (row c) }
                 else flds c2) = flds c2
                rw [if_neg hc2]
          · rw [iha, List.any_cons,
              any_congr_mem cols _ _
                (fun c2 h2 => swCond_congr row group autow _ flds c2 (hsame c2 h2)),
              swCond_eq_some row group autow flds c wmax hautow]
            have hd : decide ((flds c).width < measured (flds c) group (row c))
                = true := by
              simp [hlt]
            rw [hd, Bool.true_and, Bool.or_assoc]
        · rw [stepW_keep row group autow b flds c wmax hautow hlt]
          rcases ih b flds hnodup.2 with ⟨ihf, iha⟩
          refine ⟨?_, ?_⟩
          · intro c2
            rw [ihf c2]
            by_cases hc2 : c2 = c
            · subst hc2
              rw [if_neg hnodup.1, if_pos (List.mem_cons_self _ _),
                swField_eq_keep row group autow flds c2 wmax hautow hlt]
            · by_cases hin : c2 ∈ cols
              · rw [if_pos hin, if_pos (List.mem_cons_of_mem _ hin)]
              · have hnin2 : ¬ c2 ∈ c :: cols := by
                  intro h2
                  rcases List.mem_cons.mp h2 with h3 | h3
                  · exact hc2 h3
                  · exact hin h3
                rw [if_neg hin, if_neg hnin2]
          · rw [iha, List.any_cons,
              swCond_eq_some row group autow flds c wmax hautow]
            have hd : decide ((flds c).width < measured (flds c) group (row c))
                = false := by
              simp [hlt]
            rw [hd, Bool.false_and, Bool.false_or]

/-! ## Facts about `_proc_group` and `render` -/
theorem proc_group_width (st : SFState) (arg : StyleArg) (c : String) :
    ((proc_group st arg).2.fields c).width = (st.fields c).width := by
  cases arg with
  | noStyle => rfl
  | withStyle np npo =>
      show ((if c ∈ st.columns then
        { st.fields c with preOverride := np c, postOverride := npo c }
       else st.fields c)).width = (st.fields c).width
      by_cases hc : c ∈ st.columns
      · rw [if_pos hc]
      · rw [if_neg hc]

theorem renderStep_state (st : SFState) (row : String → PyVal)
    (arg : StyleArg) :
    (renderStep st row arg).2.2
      = SFState.mk st.columns st.separator
          (set_widths (proc_group st arg).2 row (proc_group st arg).1).2
          st.autowidth := by
  cases arg <;> rfl

theorem renderStep_adjusted (st : SFState) (row : String → PyVal)
    (arg : StyleArg) :
    (renderStep st row arg).2.1
      = (set_widths (proc_group st arg).2 row (proc_group st arg).1).1 := by
  cases arg <;> rfl

/-- C9: rendering the same normalized row twice through the same
`StyleFields` with no style override, when the first render grows no
width, produces byte-identical output both times. -/
theorem render_idempotent (st : SFState) (row : String → PyVal)
    (hnodup : st.columns.Nodup)
    (hnog : ∀ c ∈ st.columns,
      ((renderStep st row StyleArg.noStyle).2.2.fields c).width
        = (st.fields c).width) :
    (renderStep (renderStep st row StyleArg.noStyle).2.2 row StyleArg.noStyle).1
      = (renderStep st row StyleArg.noStyle).1 := by
  have hgo := set_widths_go row ProcGroup.grpDefault st.autowidth st.columns
    false st.fields hnodup
  have hfix : ∀ c, (set_widths st row ProcGroup.grpDefault).2 c
      = st.fields c := by
    intro c
    have h1 := hgo.1 c
    by_cases hc : c ∈ st.columns
    · have h2 : (set_widths st row ProcGroup.grpDefault).2 c
          = swField row ProcGroup.grpDefault st.autowidth st.fields c := by
        rw [show (set_widths st row ProcGroup.grpDefault).2 c
          = (st.columns.foldl (stepW row ProcGroup.grpDefault st.autowidth)
              (false, st.fields)).2 c from rfl, h1, if_pos hc]
      rw [h2]
      have hwidth := hnog c hc
      rcases hautow : st.autowidth c with _ | wmax
      · exact swField_eq_skip row _ st.autowidth st.fields c hautow
      · by_cases hlt : (st.fields c).width
            < measured (st.fields c) ProcGroup.grpDefault (row c)
        · exfalso
          have h3 : ((renderStep st row StyleArg.noStyle).2.2.fields c).width
              = measured (st.fields c) ProcGroup.grpDefault (row c) := by
            rw [show (renderStep st row StyleArg.noStyle).2.2.fields c
              = (set_widths st row ProcGroup.grpDefault).2 c from rfl, h2,
              swField_eq_grow row _ st.autowidth st.fields c wmax hautow hlt]
          rw [h3] at hwidth
          omega
        · exact swField_eq_keep row _ st.autowidth st.fields c wmax hautow hlt
    · rw [show (set_widths st row ProcGroup.grpDefault).2 c
        = (st.columns.foldl (stepW row ProcGroup.grpDefault st.autowidth)
            (false, st.fields)).2 c from rfl, h1, if_neg hc]
  have hstate : (renderStep st row StyleArg.noStyle).2.2 = st := by
    rw [renderStep_state]
    rcases st with ⟨cols, sep, flds, autow⟩
    simp only [SFState.mk.injEq]
    exact ⟨trivial, trivial, funext hfix, trivial⟩
  rw [hstate]

/-- Witness for `render_idempotent`: `"foo"` (width 3) in a width-10
auto column grows nothing, and both renders agree. -/
theorem render_idempotent_witness :
    (renderStep (renderStep c9state (fun _ => PyVal.vstr "foo")
        StyleArg.noStyle).2.2
      (fun _ => PyVal.vstr "foo") StyleArg.noStyle).1
      = (renderStep c9state (fun _ => PyVal.vstr "foo") StyleArg.noStyle).1 :=
  render_idempotent c9state (fun _ => PyVal.vstr "foo") (by decide)
    (by
      intro c hc
      simp only [c9state, List.mem_cons, List.not_mem_nil, or_false] at hc
      subst hc
      decide)

/-! ## C1: width monotonicity and the adjusted flag -/
theorem proc_group_columns (st : SFState) (arg : StyleArg) :
    (proc_group st arg).2.columns = st.columns := by
  cases arg <;> rfl

theorem proc_group_autowidth (st : SFState) (arg : StyleArg) :
    (proc_group st arg).2.autowidth = st.autowidth := by
  cases arg <;> rfl

theorem renderStep_columns (st : SFState) (row : String → PyVal)
    (arg : StyleArg) : (renderStep st row arg).2.2.columns = st.columns := by
  rw [renderStep_state]

theorem renderStep_autowidth (st : SFState) (row : String → PyVal)
    (arg : StyleArg) : (renderStep st row arg).2.2.autowidth = st.autowidth := by
  rw [renderStep_state]

theorem swField_width_ge (row : String → PyVal) (group : ProcGroup)
    (autow : String → Option (Option Nat)) (flds : String → Field)
    (c : String) :
    (flds c).width ≤ (swField row group autow flds c).width := by
  rcases hautow : autow c with _ | wmax
  · rw [swField_eq_skip row group autow flds c hautow]
  · by_cases hlt : (flds c).width < measured (flds c) group (row c)
    · rw [swField_eq_grow row group autow flds c wmax hautow hlt]
      exact Nat.le_of_lt hlt
    · rw [swField_eq_keep row group autow flds c wmax hautow hlt]

theorem renderStep_fields (st : SFState) (row : String → PyVal)
    (arg : StyleArg) (hnodup : st.columns.Nodup) (c : String) :
    (renderStep st row arg).2.2.fields c
      = (if c ∈ st.columns then
          swField row (proc_group st arg).1 st.autowidth
            (proc_group st arg).2.fields c
         else (proc_group st arg).2.fields c) := by
  rw [renderStep_state]
  show (set_widths (proc_group st arg).2 row (proc_group st arg).1).2 c = _
  have hgo := set_widths_go row (proc_group st arg).1
    (proc_group st arg).2.autowidth (proc_group st arg).2.columns false
    (proc_group st arg).2.fields
    (by rw [proc_group_columns]; exact hnodup)
  have h1 := hgo.1 c
  rw [show (set_widths (proc_group st arg).2 row (proc_group st arg).1).2 c
    = ((proc_group st arg).2.columns.foldl
        (stepW row (proc_group st arg).1 (proc_group st arg).2.autowidth)
        (false, (proc_group st arg).2.fields)).2 c from rfl, h1,
    proc_group_columns, proc_group_autowidth]

theorem renderStep_width_mono (st : SFState) (row : String → PyVal)
    (arg : StyleArg) (hnodup : st.columns.Nodup) (c : String) :
    (st.fields c).width ≤ ((renderStep st row arg).2.2.fields c).width := by
  rw [renderStep_fields st row arg hnodup c]
  by_cases hc : c ∈ st.columns
  · rw [if_pos hc, ← proc_group_width st arg c]
    exact swField_width_ge row _ st.autowidth (proc_group st arg).2.fields c
  · rw [if_neg hc, proc_group_width st arg c]

theorem runRenders_width_mono :
    ∀ (inputs : List ((String → PyVal) × StyleArg)) (st : SFState),
    st.columns.Nodup →
    ∀ c, (st.fields c).width ≤ ((runRenders st inputs).fields c).width := by
  intro inputs
  induction inputs with
  | nil => intro st _ c; exact Nat.le_refl _
  | cons i inputs ih =>
      intro st hnodup c
      show (st.fields c).width
        ≤ ((runRenders (renderStep st i.1 i.2).2.2 inputs).fields c).width
      refine Nat.le_trans (renderStep_width_mono st i.1 i.2 hnodup c) ?_
      exact ih (renderStep st i.1 i.2).2.2
        (by rw [renderStep_columns]; exact hnodup) c

theorem capOk_true_iff (width : Nat) (wmax : Option Nat) :
    capOk width wmax = true ↔
      (wmax = Option.none ∨ ∃ m, wmax = Option.some m ∧ width < m) := by
  rcases wmax with _ | m
  · simp [capOk]
  · simp [capOk]

theorem swCond_true_iff (row : String → PyVal) (group : ProcGroup)
    (autow : String → Option (Option Nat)) (flds : String → Field)
    (c : String) :
    swCond row group autow flds c = true ↔
      ∃ wmax, autow c = Option.some wmax ∧
        (flds c).width < measured (flds c) group (row c) ∧
        (wmax = Option.none ∨
          ∃ m, wmax = Option.some m ∧ (flds c).width < m) := by
  rcases hautow : autow c with _ | wmax
  · rw [swCond_eq_skip row group autow flds c hautow]
    simp
  · rw [swCond_eq_some row group autow flds c wmax hautow]
    rw [Bool.and_eq_true, decide_eq_true_iff, capOk_true_iff]
    constructor
    · rintro ⟨h1, h2⟩
      exact ⟨wmax, rfl, h1, h2⟩
    · rintro ⟨wmax2, he, h1, h2⟩
      rw [← Option.some.inj he] at h2
      exact ⟨h1, h2⟩

/-- C1 (counterexample to the claim as stated): with `max = 5`, a
first render of `"123456"` grows the width to 6 (adjusted), and a second
render of `"1234567"` grows it again from 6 to 7 — yet `width_adjusted`
is `False`, because the width had already passed the `max`.  A render
that increases a width does not always signal adjusted. -/
theorem autowidth_claim_counterexample :
    ((renderStep c1state (fun _ => PyVal.vstr "123456")
        StyleArg.noStyle).2.2.fields "a").width
      < ((renderStep
          (renderStep c1state (fun _ => PyVal.vstr "123456")
            StyleArg.noStyle).2.2
          (fun _ => PyVal.vstr "1234567") StyleArg.noStyle).2.2.fields
            "a").width ∧
    (renderStep
        (renderStep c1state (fun _ => PyVal.vstr "123456")
          StyleArg.noStyle).2.2
        (fun _ => PyVal.vstr "1234567") StyleArg.noStyle).2.1 = false := by
  decide

/-- C1 (amended): across renders the width of an auto-width column never
decreases (also along any sequence of renders); `width_adjusted` is true
exactly when the measured value length of some auto-width column exceeds its
current width while the width is still below the `max` bound (or no
`max` is set); and a render that increases a width signals adjusted
unless a `max` is set that the width had already reached. -/
theorem autowidth_monotone_adjusted (st : SFState) (row : String → PyVal)
    (arg : StyleArg) (hnodup : st.columns.Nodup) :
    (∀ c, (st.fields c).width ≤ ((renderStep st row arg).2.2.fields c).width) ∧
    ((renderStep st row arg).2.1 = true ↔
      ∃ c ∈ st.columns, ∃ wmax, st.autowidth c = Option.some wmax ∧
        (st.fields c).width
          < measured ((proc_group st arg).2.fields c) (proc_group st arg).1
              (row c) ∧
        (wmax = Option.none ∨
          ∃ m, wmax = Option.some m ∧ (st.fields c).width < m)) ∧
    (∀ c, (st.fields c).width < ((renderStep st row arg).2.2.fields c).width →
      ((renderStep st row arg).2.1 = true ∨
        ∃ m, st.autowidth c = Option.some (Option.some m) ∧
          m ≤ (st.fields c).width)) ∧
    (∀ inputs : List ((String → PyVal) × StyleArg), ∀ c,
      (st.fields c).width ≤ ((runRenders st inputs).fields c).width) := by
  have hadj : (renderStep st row arg).2.1
      = st.columns.any (fun c => swCond row (proc_group st arg).1
          st.autowidth (proc_group st arg).2.fields c) := by
    rw [renderStep_adjusted]
    have hgo := set_widths_go row (proc_group st arg).1
      (proc_group st arg).2.autowidth (proc_group st arg).2.columns false
      (proc_group st arg).2.fields
      (by rw [proc_group_columns]; exact hnodup)
    rw [show (set_widths (proc_group st arg).2 row (proc_group st arg).1).1
      = ((proc_group st arg).2.columns.foldl
          (stepW row (proc_group st arg).1 (proc_group st arg).2.autowidth)
          (false, (proc_group st arg).2.fields)).1 from rfl, hgo.2,
      Bool.false_or, proc_group_columns, proc_group_autowidth]
  refine ⟨fun c => renderStep_width_mono st row arg hnodup c, ?_, ?_,
    fun inputs c => runRenders_width_mono inputs st hnodup c⟩
  · rw [hadj, List.any_eq_true]
    constructor
    · rintro ⟨c, hc, hcond⟩
      rcases (swCond_true_iff row (proc_group st arg).1 st.autowidth
        (proc_group st arg).2.fields c).mp hcond with ⟨wmax, hautow, hlt, hcap⟩
      rw [proc_group_width st arg c] at hlt hcap
      exact ⟨c, hc, wmax, hautow, hlt, hcap⟩
    · rintro ⟨c, hc, wmax, hautow, hlt, hcap⟩
      refine ⟨c, hc, (swCond_true_iff row (proc_group st arg).1 st.autowidth
        (proc_group st arg).2.fields c).mpr ⟨wmax, hautow, ?_, ?_⟩⟩
      · rw [proc_group_width st arg c]
        exact hlt
      · rw [proc_group_width st arg c]
        exact hcap
  · intro c hgrow
    rw [renderStep_fields st row arg hnodup c] at hgrow
    by_cases hc : c ∈ st.columns
    · rw [if_pos hc] at hgrow
      rcases hautow : st.autowidth c with _ | wmax
      · exfalso
        rw [swField_eq_skip row _ st.autowidth _ c hautow,
          proc_group_width st arg c] at hgrow
        omega
      · by_cases hlt : ((proc_group st arg).2.fields c).width
            < measured ((proc_group st arg).2.fields c) (proc_group st arg).1
                (row c)
        · rcases wmax with _ | m
          · refine Or.inl ?_
            rw [hadj, List.any_eq_true]
            refine ⟨c, hc, (swCond_true_iff _ _ _ _ c).mpr
              ⟨Option.none, hautow, hlt, Or.inl rfl⟩⟩
          · by_cases hm : ((proc_group st arg).2.fields c).width < m
            · refine Or.inl ?_
              rw [hadj, List.any_eq_true]
              refine ⟨c, hc, (swCond_true_iff _ _ _ _ c).mpr
                ⟨Option.some m, hautow, hlt, Or.inr ⟨m, rfl, hm⟩⟩⟩
            · refine Or.inr ⟨m, rfl, ?_⟩
              have hw := proc_group_width st arg c
              omega
        · exfalso
          rw [swField_eq_keep row _ st.autowidth _ c wmax hautow hlt,
            proc_group_width st arg c] at hgrow
          omega
    · exfalso
      rw [if_neg hc, proc_group_width st arg c] at hgrow
      omega

/-- Witness for `autowidth_monotone_adjusted` at the concrete bounded
auto-width state `c1state` and the row `"123456"`. -/
theorem autowidth_monotone_adjusted_witness :
    (∀ c, (c1state.fields c).width
      ≤ ((renderStep c1state (fun _ => PyVal.vstr "123456")
          StyleArg.noStyle).2.2.fields c).width) ∧
    ((renderStep c1state (fun _ => PyVal.vstr "123456")
        StyleArg.noStyle).2.1 = true ↔
      ∃ c ∈ c1state.columns, ∃ wmax, c1state.autowidth c = Option.some wmax ∧
        (c1state.fields c).width
          < measured ((proc_group c1state StyleArg.noStyle).2.fields c)
              (proc_group c1state StyleArg.noStyle).1
              ((fun _ => PyVal.vstr "123456") c) ∧
        (wmax = Option.none ∨
          ∃ m, wmax = Option.some m ∧ (c1state.fields c).width < m)) ∧
    (∀ c, (c1state.fields c).width
        < ((renderStep c1state (fun _ => PyVal.vstr "123456")
            StyleArg.noStyle).2.2.fields c).width →
      ((renderStep c1state (fun _ => PyVal.vstr "123456")
          StyleArg.noStyle).2.1 = true ∨
        ∃ m, c1state.autowidth c = Option.some (Option.some m) ∧
          m ≤ (c1state.fields c).width)) ∧
    (∀ inputs : List ((String → PyVal) × StyleArg), ∀ c,
      (c1state.fields c).width
        ≤ ((runRenders c1state inputs).fields c).width) :=
  autowidth_monotone_adjusted c1state (fun _ => PyVal.vstr "123456")
    StyleArg.noStyle (by decide)

end Pyout
